import Mathlib

/-!
Verification of the network-analysis engine
(`src/pipeline/analysis/network.py`, data model in
`src/pipeline/models/schema.py`).

The Python code is shallowly embedded: Python `float` weights become `ℚ`
(every weight in the program is a small dyadic rational — 3.0, 1.0, 1.5 and
sums thereof — on which binary floating point is exact), Python dicts
become insertion-ordered association lists, Python's stable `sorted`
(including `Counter.most_common`, which is documented as equivalent to a
stable descending sort followed by `take`) becomes `List.insertionSort`
with the corresponding order, and a `networkx.Graph` becomes a node list
plus a list of edge records keyed by unordered endpoint pair.

Python's `set` iteration order is unspecified; wherever the source
materialises a set (`list(set(fids))`, set comprehensions), the embedding
uses first-occurrence deduplication.  All results proved below are
independent of that order choice.

`networkx` is an external dependency; its two entry points used by the
source are modelled from their documented semantics:
`nx.betweenness_centrality(G, weight="weight")` (Brandes' algorithm with
the edge attribute as an additive *distance*, endpoints excluded, and the
default `normalized=True`, which for an undirected graph rescales the
per-source accumulation by `1/((n-1)(n-2))`), and
`nx.community.greedy_modularity_communities`, which is kept abstract as a
function parameter since no claim depends on its internals.
-/

namespace FintechNetworks

attribute [local semireducible] Rat.add Rat.mul Rat.inv Rat.sub

/-! ### Generic list utilities -/

/-- Python's `str.strip()`: remove leading and trailing whitespace.
(Defined on the character list so that it evaluates inside the kernel;
the inputs of this program only ever carry ASCII whitespace.) -/
def pyStrip (s : String) : String :=
  String.mk (((s.data.dropWhile Char.isWhitespace).reverse.dropWhile
    Char.isWhitespace).reverse)

/-- First-occurrence deduplication, with an accumulator of already-seen
elements.  Models iteration over a Python `set` built from a list; the
particular order is irrelevant to every property proved below. -/
def dedupFirstAux {α : Type} [DecidableEq α] (seen : List α) : List α → List α
  | [] => []
  | a :: rest =>
    if a ∈ seen then dedupFirstAux seen rest
    else a :: dedupFirstAux (a :: seen) rest

/-- Keep the first occurrence of each element of a list. -/
def dedupFirst {α : Type} [DecidableEq α] (l : List α) : List α :=
  dedupFirstAux [] l

/-- All ordered position pairs `(l[i], l[j])` with `i < j`, as produced by
`for i, a in enumerate(l): for b in l[i+1:]`. -/
def pairsOf {α : Type} : List α → List (α × α)
  | [] => []
  | a :: rest => rest.map (fun b => (a, b)) ++ pairsOf rest

/-- Append a value to the group of key `k` of an insertion-ordered
association list, creating the group at the end if absent.  Models
`defaultdict(list)` item access followed by `.append`. -/
def groupInsert {κ α : Type} [DecidableEq κ] :
    List (κ × List α) → κ → α → List (κ × List α)
  | [], k, v => [(k, [v])]
  | (k', vs) :: rest, k, v =>
    if k' = k then (k, vs ++ [v]) :: rest else (k', vs) :: groupInsert rest k v

/-- Group a stream of key/value pairs, preserving key first-encounter order
and per-key value order, as a Python `defaultdict(list)` loop does. -/
def groupPairs {κ α : Type} [DecidableEq κ] (l : List (κ × α)) :
    List (κ × List α) :=
  l.foldl (fun m kv => groupInsert m kv.1 kv.2) []

/-- Values stored under key `k` (empty if the key is absent). -/
def groupLookup {κ α : Type} [DecidableEq κ] (m : List (κ × List α)) (k : κ) :
    List α :=
  ((m.find? (fun g => g.1 = k)).map Prod.snd).getD []

/-- Increment the tally of `k` in an insertion-ordered counter, inserting
`(k, 1)` at the end if absent.  Models `collections.Counter` item update. -/
def counterBump {κ : Type} [DecidableEq κ] :
    List (κ × Nat) → κ → List (κ × Nat)
  | [], k => [(k, 1)]
  | (k', c) :: rest, k =>
    if k' = k then (k, c + 1) :: rest else (k', c) :: counterBump rest k

/-- Build a counter from a stream of keys. -/
def counterFold {κ : Type} [DecidableEq κ] (l : List κ) : List (κ × Nat) :=
  l.foldl counterBump []

/-- Tally recorded for `k` (0 if absent). -/
def counterLookup {κ : Type} [DecidableEq κ] (m : List (κ × Nat)) (k : κ) :
    Nat :=
  ((m.find? (fun g => g.1 = k)).map Prod.snd).getD 0

/-- Stable descending sort by a numeric key: Python's
`sorted(xs, key=key, reverse=True)`, which keeps the original order of
ties.  `List.insertionSort` with this relation places each element before
the first strictly-smaller key, which is exactly that behaviour. -/
def pySortDesc {α : Type} (key : α → ℚ) (l : List α) : List α :=
  l.insertionSort (fun a b => key b ≤ key a)

/-- Python's `Counter.most_common(n)`: stable descending sort by count,
then the first `n` entries. -/
def mostCommon {κ : Type} (m : List (κ × Nat)) (n : Nat) : List (κ × Nat) :=
  (pySortDesc (fun g => (g.2 : ℚ)) m).take n

/-- Python's `round(q, 4)`.  On the dyadic values produced by this program
the binary-float round-half-even of CPython and rounding half up agree
(no value below ever lands exactly on a half at the fourth decimal). -/
def round4 (q : ℚ) : ℚ := (⌊q * 10000 + 1 / 2⌋ : ℚ) / 10000

/-! ### Data model (`src/pipeline/models/schema.py`)

Only the fields the analysis engine reads are carried; the remaining
pydantic metadata fields (`degree`, `linkedin_url`, `source`, …) are
never consulted by `network.py`'s algorithms. -/

/-- Education record: institution name (free text). -/
structure Education where
  institution : String
deriving Repr, DecidableEq

/-- Work-history record: employer name (the field is called `company` in the
source schema). -/
structure WorkExperience where
  company : String
deriving Repr, DecidableEq

/-- Founder entity. -/
structure Founder where
  id : String
  name : String
  companies : List String := []
  education : List Education := []
  work_history : List WorkExperience := []
deriving Repr, DecidableEq

/-- Company entity. -/
structure Company where
  id : String
  name : String
  city : Option String := none
deriving Repr, DecidableEq

/-- Relationship kinds used by the graph builder. -/
inductive RelationshipType where
  | co_founder
  | same_college
  | same_employer
deriving Repr, DecidableEq

/-- An edge record appended to `self.edges` (`NetworkEdge` in the schema). -/
structure NetworkEdge where
  source_id : String
  target_id : String
  relationship : RelationshipType
  weight : ℚ
  context : String
deriving Repr, DecidableEq

/-- Accumulator pass of `toDictF`. -/
def toDictFAux (acc : List Founder) : List Founder → List Founder
  | [] => acc
  | f :: rest =>
    if (acc.map Founder.id).contains f.id then
      toDictFAux (acc.map (fun g => if g.id = f.id then f else g)) rest
    else toDictFAux (acc ++ [f]) rest

/-- Python dict comprehension `{x.id: x for x in xs}` read back as a value
list: later duplicate ids overwrite the stored value but keep the original
position.  The claims' inputs have unique ids, for which this is the
identity. -/
def toDictF (l : List Founder) : List Founder :=
  toDictFAux [] l

/-- Company dictionary `{c.id: c for c in companies}` as `get` uses it:
first match wins once ids are unique (the claims' precondition). -/
def companyById (companies : List Company) (cid : String) : Option Company :=
  companies.find? (fun c => c.id = cid)

/-- `self.companies.get(cid, Company(id=cid, name=cid)).name`: display name
with the raw identifier as fallback for a dangling reference. -/
def companyDisplayName (companies : List Company) (cid : String) : String :=
  ((companyById companies cid).map Company.name).getD cid

/-! ### Graph (model of `networkx.Graph`) -/

/-- Stored attributes of one undirected edge, keyed by its unordered
endpoint pair `{a, b}`. -/
structure GEdge where
  a : String
  b : String
  weight : ℚ
  rel : String
  ctx : String
deriving Repr, DecidableEq

/-- Unordered-pair key equality test. -/
def pairMatch (p q x y : String) : Bool :=
  (p = x && q = y) || (p = y && q = x)

/-- Undirected graph: insertion-ordered node list (a `networkx` node dict)
and at most one edge record per unordered endpoint pair. -/
structure Graph where
  nodes : List String
  edgeList : List GEdge
deriving Repr, DecidableEq

/-- Membership-preserving node insertion; `nx.Graph.add_node` keeps an
existing node (the payload attributes are not used by any algorithm and
are not carried). -/
def Graph.addNode (g : Graph) (x : String) : Graph :=
  if x ∈ g.nodes then g else { g with nodes := g.nodes ++ [x] }

/-- Test for `G.has_edge(x, y)`. -/
def Graph.hasEdge (g : Graph) (x y : String) : Bool :=
  g.edgeList.any (fun e => pairMatch e.a e.b x y)

/-- `G.add_edge(x, y, weight=w, rel=r, ctx=c)`: ensures both endpoints are
nodes and overwrites the attributes of an existing edge for the pair,
otherwise appends a new edge record. -/
def Graph.addEdge (g : Graph) (x y : String) (w : ℚ) (r c : String) : Graph :=
  let g' := (g.addNode x).addNode y
  if g'.hasEdge x y then
    { g' with
      edgeList := g'.edgeList.map (fun e =>
        if pairMatch e.a e.b x y then { e with weight := w, rel := r, ctx := c }
        else e) }
  else { g' with edgeList := g'.edgeList ++ [⟨x, y, w, r, c⟩] }

/-- `G[x][y]["weight"] += d`. -/
def Graph.bumpWeight (g : Graph) (x y : String) (d : ℚ) : Graph :=
  { g with
    edgeList := g.edgeList.map (fun e =>
      if pairMatch e.a e.b x y then { e with weight := e.weight + d } else e) }

/-- Total weight stored for the unordered pair `{x, y}` — with the
one-edge-per-pair invariant this is the weight of the unique edge, and 0
when the pair has no edge. -/
def weightOf (g : Graph) (x y : String) : ℚ :=
  ((g.edgeList.filter (fun e => pairMatch e.a e.b x y)).map GEdge.weight).sum

/-- Number of stored edges for the unordered pair `{x, y}`. -/
def edgeCountOf (g : Graph) (x y : String) : Nat :=
  (g.edgeList.filter (fun e => pairMatch e.a e.b x y)).length

/-- Invariant of the `networkx.Graph` model: at most one stored edge per
unordered endpoint pair. -/
def OnePer (g : Graph) : Prop :=
  ∀ x y, edgeCountOf g x y ≤ 1

/-- Analyser graph-building state: `self.graph` and `self.edges`. -/
structure BState where
  graph : Graph
  edges : List NetworkEdge
deriving Repr, DecidableEq

/-- State installed by `NetworkAnalyser.__init__`. -/
def initState : BState := { graph := ⟨[], []⟩, edges := [] }

/-! ### Graph construction (`NetworkAnalyser.build_graph`) -/

/-- Key/founder-id stream of the co-founder grouping loop:
`for fid, f in self.founders.items(): for cid in f.companies`. -/
def companyStream (founders : List Founder) : List (String × String) :=
  founders.flatMap (fun f => f.companies.map (fun cid => (cid, f.id)))

/-- Key/founder-id stream of the same-college grouping loop: institution
names are trimmed and empty names are dropped. -/
def instStream (founders : List Founder) : List (String × String) :=
  founders.flatMap (fun f =>
    f.education.filterMap (fun ed =>
      let inst := pyStrip ed.institution
      if inst = "" then none else some (inst, f.id)))

/-- Key/founder-id stream of the same-employer grouping loop: employer
names are trimmed; empty names and the em-dash sentinel are dropped. -/
def empStream (founders : List Founder) : List (String × String) :=
  founders.flatMap (fun f =>
    f.work_history.filterMap (fun w =>
      let emp := pyStrip w.company
      if emp = "" ∨ emp = "—" then none else some (emp, f.id)))

/-- One iteration of the co-founder double loop: unconditional
`G.add_edge(a, b, weight=3.0, rel="co_founder", ctx=cid)` (overwriting any
previous attributes for the pair) plus an edge-record append whose context
is the company display name. -/
def coFounderStep (companies : List Company) (cid : String) (st : BState)
    (p : String × String) : BState :=
  { graph := st.graph.addEdge p.1 p.2 3 "co_founder" cid
    edges := st.edges ++
      [⟨p.1, p.2, RelationshipType.co_founder, 3, companyDisplayName companies cid⟩] }

/-- One iteration of the same-college / same-employer double loop: top up
the weight of an existing edge, otherwise create the edge; always append
an edge record. -/
def accumStep (w : ℚ) (rel : RelationshipType) (relName : String)
    (st : BState) (kp : String × String × String) : BState :=
  let k := kp.1
  let a := kp.2.1
  let b := kp.2.2
  { graph :=
      if st.graph.hasEdge a b then st.graph.bumpWeight a b w
      else st.graph.addEdge a b w relName k
    edges := st.edges ++ [⟨a, b, rel, w, k⟩] }

/-- Flattened iteration of `for cid, fids in company_founders.items():`
over all position pairs of each group. -/
def coPairStream (founders : List Founder) : List (String × String × String) :=
  (groupPairs (companyStream founders)).flatMap (fun g =>
    (pairsOf g.2).map (fun p => (g.1, p)))

/-- Flattened iteration of the same-college groups: each group's member
list is passed through `list(set(fids))` before pairing. -/
def instPairStream (founders : List Founder) : List (String × String × String) :=
  (groupPairs (instStream founders)).flatMap (fun g =>
    (pairsOf (dedupFirst g.2)).map (fun p => (g.1, p)))

/-- Flattened iteration of the same-employer groups. -/
def empPairStream (founders : List Founder) : List (String × String × String) :=
  (groupPairs (empStream founders)).flatMap (fun g =>
    (pairsOf (dedupFirst g.2)).map (fun p => (g.1, p)))

/-- Model of `NetworkAnalyser.build_graph`: founder nodes, then the
co-founder, same-college and same-employer rules in order, applied on top
of the current state (the source never resets `self.graph`/`self.edges`). -/
def build_graph (founders : List Founder) (companies : List Company)
    (st : BState) : BState :=
  let fs := toDictF founders
  let st0 : BState :=
    { st with graph := fs.foldl (fun g f => g.addNode f.id) st.graph }
  let st1 := (coPairStream fs).foldl
    (fun s kp => coFounderStep companies kp.1 s kp.2) st0
  let st2 := (instPairStream fs).foldl
    (accumStep 1 RelationshipType.same_college "same_college") st1
  (empPairStream fs).foldl
    (accumStep (3 / 2) RelationshipType.same_employer "same_employer") st2

/-- Graph produced by a single `build_graph` call on a fresh analyser. -/
def builtGraph (founders : List Founder) (companies : List Company) : Graph :=
  (build_graph founders companies initState).graph

/-! ### Counting queries (`education_hubs`, `employer_pipelines`) -/

/-- Counter built by `education_hubs`: one tally per education record whose
trimmed institution name is non-empty. -/
def educationCounter (founders : List Founder) : List (String × Nat) :=
  counterFold ((instStream (toDictF founders)).map Prod.fst)

/-- Model of `NetworkAnalyser.education_hubs`: `(institution, founder_count)`
entries, `Counter.most_common(top_n)`. -/
def education_hubs (founders : List Founder) (top_n : Nat) :
    List (String × Nat) :=
  mostCommon (educationCounter founders) top_n

/-- Counter built by `employer_pipelines`: one tally per work record whose
trimmed employer is non-empty and not the em-dash sentinel. -/
def employerCounter (founders : List Founder) : List (String × Nat) :=
  counterFold ((empStream (toDictF founders)).map Prod.fst)

/-- Model of `NetworkAnalyser.employer_pipelines`. -/
def employer_pipelines (founders : List Founder) (top_n : Nat) :
    List (String × Nat) :=
  mostCommon (employerCounter founders) top_n

/-! ### Betweenness centrality (`centrality_rankings`)

Model of `nx.betweenness_centrality(G, weight="weight")`: for each ordered
source/target pair the dependency `σ(s,t|v)/σ(s,t)` is accumulated over
shortest paths computed by Dijkstra with the `weight` attribute as an
additive distance, endpoints are excluded, and the default
`normalized=True` rescales by `1/((n-1)(n-2))` when the graph has more
than two nodes.  With the positive weights this program produces,
shortest walks are exactly the minimum-cost simple paths, which the model
enumerates explicitly. -/

/-- Adjacency test along consecutive nodes of a list. -/
def chainAdjB (g : Graph) : List String → Bool
  | x :: y :: rest => g.hasEdge x y && chainAdjB g (y :: rest)
  | _ => true

/-- Adjacency consecutive along a list of nodes. -/
def chainAdj (g : Graph) (p : List String) : Prop :=
  chainAdjB g p = true

instance (g : Graph) (p : List String) : Decidable (chainAdj g p) :=
  inferInstanceAs (Decidable (chainAdjB g p = true))

/-- Additive cost of a node list under the graph's edge weights. -/
def pathCost (g : Graph) : List String → ℚ
  | x :: y :: rest => weightOf g x y + pathCost g (y :: rest)
  | _ => 0

/-- Simple path from `s` to `t`: non-empty duplicate-free node list whose
consecutive nodes are adjacent. -/
def IsSPath (g : Graph) (s t : String) (p : List String) : Prop :=
  p.head? = some s ∧ p.getLast? = some t ∧ p.Nodup ∧ chainAdj g p

instance (g : Graph) (s t : String) (p : List String) :
    Decidable (IsSPath g s t p) :=
  inferInstanceAs (Decidable
    (p.head? = some s ∧ p.getLast? = some t ∧ p.Nodup ∧ chainAdj g p))

/-- Insertions of an element at every position of a list. -/
def insertEverywhere {α : Type} (a : α) : List α → List (List α)
  | [] => [[a]]
  | b :: bs => (a :: b :: bs) :: (insertEverywhere a bs).map (b :: ·)

/-- All permutations of a list, by structural recursion (so that it
evaluates inside the kernel). -/
def permsOf {α : Type} : List α → List (List α)
  | [] => [[]]
  | a :: rest => (permsOf rest).flatMap (insertEverywhere a)

/-- Candidate node lists: every permutation of every sublist of the node
set.  Every simple path over the graph's nodes occurs in this list. -/
def pathUniverse (g : Graph) : List (List String) :=
  (dedupFirst g.nodes).sublists.flatMap permsOf

/-- Finite set of simple paths from `s` to `t`. -/
def pathFinset (g : Graph) (s t : String) : Finset (List String) :=
  (pathUniverse g).toFinset.filter (fun p => IsSPath g s t p)

/-- Weighted distance from `s` to `t` (`⊤` when unreachable). -/
def distW (g : Graph) (s t : String) : WithTop ℚ :=
  ((pathFinset g s t).image (pathCost g)).min

/-- Set of minimum-cost simple paths from `s` to `t`. -/
def shortestPaths (g : Graph) (s t : String) : Finset (List String) :=
  (pathFinset g s t).filter (fun p => (pathCost g p : WithTop ℚ) = distW g s t)

/-- Number of weighted shortest paths, `σ(s,t)`. -/
def sigmaST (g : Graph) (s t : String) : Nat :=
  (shortestPaths g s t).card

/-- Number of weighted shortest paths through `v`, `σ(s,t|v)`. -/
def sigmaThrough (g : Graph) (s t v : String) : Nat :=
  ((shortestPaths g s t).filter (fun p => v ∈ p)).card

/-- Pair dependency of `(s, t)` on `v`, zero at endpoints and for
unreachable pairs. -/
def pairDep (g : Graph) (s t v : String) : ℚ :=
  if s ≠ t ∧ v ≠ s ∧ v ≠ t ∧ sigmaST g s t ≠ 0 then
    (sigmaThrough g s t v : ℚ) / (sigmaST g s t : ℚ)
  else 0

/-- Brandes accumulation from every source (each unordered pair is visited
twice). -/
def orderedPairSum (g : Graph) (v : String) : ℚ :=
  (g.nodes.map (fun s => (g.nodes.map (fun t => pairDep g s t v)).sum)).sum

/-- Betweenness value reported by
`nx.betweenness_centrality(G, weight="weight")` with its default
`normalized=True`: the accumulation rescaled by `1/((n-1)(n-2))` for
`n ≥ 3`, and returned unscaled for smaller graphs. -/
def nxBetweenness (g : Graph) (v : String) : ℚ :=
  let n := g.nodes.length
  if 3 ≤ n then
    orderedPairSum g v / (((n : ℚ) - 1) * ((n : ℚ) - 2))
  else orderedPairSum g v

/-- Centrality figure that `centrality_rankings` places in its result
dicts: the betweenness value rounded to four decimals. -/
def centralityValue (g : Graph) (v : String) : ℚ :=
  round4 (nxBetweenness g v)

/-- One `centrality_rankings` result entry. -/
structure CentralityEntry where
  founder_id : String
  name : String
  centrality : ℚ
deriving Repr, DecidableEq

/-- Display-name lookup `self.founders[fid].name if fid in self.founders
else fid`. -/
def founderDisplayName (founders : List Founder) (fid : String) : String :=
  (((toDictF founders).find? (fun f => f.id = fid)).map Founder.name).getD fid

/-- Model of `NetworkAnalyser.centrality_rankings`: empty when the graph
has no edges, otherwise every node scored, sorted descending (stable),
truncated to `top_n`, and rounded on output. -/
def centrality_rankings (founders : List Founder) (g : Graph) (top_n : Nat) :
    List CentralityEntry :=
  if g.edgeList.isEmpty then []
  else
    ((pySortDesc Prod.snd (g.nodes.map (fun v => (v, nxBetweenness g v)))).take
        top_n).map
      (fun sc => ⟨sc.1, founderDisplayName founders sc.1, round4 sc.2⟩)

/-! ### Community detection (`detect_clusters`)

`nx.community.greedy_modularity_communities` is an external library
routine; it is abstracted as a parameter `comm` producing the list of
communities (each a member list — the source's `frozenset` iteration
order).  No claim depends on its internals. -/

/-- One dominant-context tally entry. -/
structure ContextEntry where
  entity : String
  count : Nat
deriving Repr, DecidableEq

/-- One `detect_clusters` result entry. -/
structure Cluster where
  cluster_id : Nat
  size : Nat
  members : List String
  dominant_context : List ContextEntry
deriving Repr, DecidableEq

/-- Dominant-context counter of a community: every raw institution name,
raw employer name and founded-company display name of every member that is
a known founder (names are *not* trimmed here, matching the source). -/
def clusterContexts (founders : List Founder) (companies : List Company)
    (members : List String) : List (String × Nat) :=
  counterFold (members.flatMap (fun fid =>
    match (toDictF founders).find? (fun f => f.id = fid) with
    | none => []
    | some f =>
      f.education.map (fun ed => ed.institution) ++
        f.work_history.map (fun w => w.company) ++
        f.companies.filterMap (fun cid =>
          (companyById companies cid).map Company.name)))

/-- Model of `NetworkAnalyser.detect_clusters`. -/
def detect_clusters (founders : List Founder) (companies : List Company)
    (g : Graph) (comm : Graph → List (List String)) (min_size : Nat) :
    List Cluster :=
  if g.edgeList.isEmpty then []
  else
    pySortDesc (fun c => (c.size : ℚ))
      ((comm g).enum.filterMap (fun ic =>
        if ic.2.length < min_size then none
        else
          some
            { cluster_id := ic.1
              size := ic.2.length
              members := ic.2.map (founderDisplayName founders)
              dominant_context :=
                (mostCommon (clusterContexts founders companies ic.2) 3).map
                  (fun kc => ⟨kc.1, kc.2⟩) }))

/-! ### Talent flow (`founder_to_company_flow`) -/

/-- One `founder_to_company_flow` result entry. -/
structure FlowEntry where
  from_employer : String
  to_company : String
  founders : List String
  count : Nat
deriving Repr, DecidableEq

/-- Key/value stream of the flow loop: for each founder, each member of the
set of trimmed employers *excluding only the em-dash sentinel* (empty
strings are kept), crossed with the set of founded-company identifiers,
mapping to the founder's display name under the `(employer, company name)`
key. -/
def flowStream (founders : List Founder) (companies : List Company) :
    List ((String × String) × String) :=
  (toDictF founders).flatMap (fun f =>
    (dedupFirst (f.work_history.filterMap (fun w =>
        let emp := pyStrip w.company
        if emp = "—" then none else some emp))).flatMap
      (fun emp =>
        (dedupFirst f.companies).map (fun cid =>
          ((emp, companyDisplayName companies cid), f.name))))

/-- Model of `NetworkAnalyser.founder_to_company_flow`: group the stream,
keep groups with at least two contributing founders, sort by contributor
count descending (stable). -/
def founder_to_company_flow (founders : List Founder)
    (companies : List Company) : List FlowEntry :=
  pySortDesc (fun r => (r.count : ℚ))
    ((groupPairs (flowStream founders companies)).filterMap (fun g =>
      if 2 ≤ g.2.length then
        some ⟨g.1.1, g.1.2, g.2, g.2.length⟩
      else none))

/-! ### Insight synthesis (`generate_insights`) -/

/-- One insight record. -/
structure NetworkInsight where
  category : String
  title : String
  detail : String
  score : ℚ
  entities : List String
deriving Repr, DecidableEq

/-- Education-hub insights: top-10 institutions with at least three
records, scored by the count. -/
def educationHubInsights (founders : List Founder) : List NetworkInsight :=
  (education_hubs founders 10).filterMap (fun hub =>
    if 3 ≤ hub.2 then
      some
        { category := "education_hub"
          title := hub.1 ++ " Founder Factory"
          detail := hub.1 ++ " produced founders in this sector."
          score := (hub.2 : ℚ)
          entities := [hub.1] }
    else none)

/-- Employer-pipeline insights: top-10 employers with at least three
records, scored by count × 1.5. -/
def employerPipelineInsights (founders : List Founder) : List NetworkInsight :=
  (employer_pipelines founders 10).filterMap (fun pipe =>
    if 3 ≤ pipe.2 then
      some
        { category := "employer_pipeline"
          title := pipe.1 ++ " Alumni Mafia"
          detail := pipe.1 ++ " spawned founders."
          score := (pipe.2 : ℚ) * (3 / 2)
          entities := [pipe.1] }
    else none)

/-- Bridge-founder insights: top-5 centrality entries whose (rounded)
centrality exceeds 0.01, scored by centrality × 100. -/
def bridgeInsights (founders : List Founder) (g : Graph) :
    List NetworkInsight :=
  (centrality_rankings founders g 5).filterMap (fun bridge =>
    if 1 / 100 < bridge.centrality then
      some
        { category := "bridge_founder"
          title := bridge.name ++ " — Network Connector"
          detail := bridge.name ++ " bridges multiple founder networks."
          score := bridge.centrality * 100
          entities := [bridge.name] }
    else none)

/-- Cluster insights: every size-≥3 cluster, scored by size × 2. -/
def clusterInsights (founders : List Founder) (companies : List Company)
    (g : Graph) (comm : Graph → List (List String)) : List NetworkInsight :=
  (detect_clusters founders companies g comm 3).map (fun cluster =>
    let topCtx :=
      ((cluster.dominant_context.head?).map ContextEntry.entity).getD "unknown"
    { category := "cluster"
      title := topCtx ++ " Cluster"
      detail := "Tight cluster dominated by " ++ topCtx ++ " connections."
      score := (cluster.size : ℚ) * 2
      entities := cluster.members })

/-- Talent-flow insights: first ten flow entries, scored by count × 2.5. -/
def flowInsights (founders : List Founder) (companies : List Company) :
    List NetworkInsight :=
  ((founder_to_company_flow founders companies).take 10).map (fun flow =>
    { category := "talent_flow"
      title := flow.from_employer ++ " → " ++ flow.to_company
      detail := "Founders moved from " ++ flow.from_employer ++ " to found " ++
        flow.to_company ++ "."
      score := (flow.count : ℚ) * (5 / 2)
      entities := flow.founders })

/-- Model of `NetworkAnalyser.generate_insights`: the five insight groups
in generation order, merged by a stable descending sort on score. -/
def generate_insights (founders : List Founder) (companies : List Company)
    (g : Graph) (comm : Graph → List (List String)) : List NetworkInsight :=
  pySortDesc NetworkInsight.score
    (educationHubInsights founders ++ employerPipelineInsights founders ++
      bridgeInsights founders g ++ clusterInsights founders companies g comm ++
      flowInsights founders companies)

/-! ### Specification vocabulary

Definitions phrased from the specification's language (shared companies,
shared institutions, raw betweenness over node pairs, …), used to state
the claims against the embedded code. -/

/-- Founder stored under identifier `x` in the analyser's founder dict. -/
def founderById (founders : List Founder) (x : String) : Option Founder :=
  (toDictF founders).find? (fun f => f.id = x)

/-- Distinct company identifiers that founders `x` and `y` both list. -/
def sharedCompanies (founders : List Founder) (x y : String) : List String :=
  match founderById founders x, founderById founders y with
  | some fx, some fy =>
    (dedupFirst fx.companies).filter (fun cid => fy.companies.contains cid)
  | _, _ => []

/-- Founder `x` lists trimmed institution name `k`. -/
def listsInst (founders : List Founder) (x k : String) : Bool :=
  match founderById founders x with
  | some f => f.education.any (fun ed => pyStrip ed.institution == k)
  | none => false

/-- Distinct trimmed non-empty institution names, in encounter order. -/
def allInstNames (founders : List Founder) : List String :=
  dedupFirst ((instStream (toDictF founders)).map Prod.fst)

/-- Distinct trimmed non-empty institution names that founders `x` and `y`
both list. -/
def sharedInstitutions (founders : List Founder) (x y : String) :
    List String :=
  (allInstNames founders).filter (fun k =>
    listsInst founders x k && listsInst founders y k)

/-- Founder `x` lists trimmed employer name `k`. -/
def listsEmp (founders : List Founder) (x k : String) : Bool :=
  match founderById founders x with
  | some f => f.work_history.any (fun w => pyStrip w.company == k)
  | none => false

/-- Distinct trimmed non-empty non-sentinel employer names, in encounter
order. -/
def allEmpNames (founders : List Founder) : List String :=
  dedupFirst ((empStream (toDictF founders)).map Prod.fst)

/-- Distinct trimmed non-empty non-sentinel employer names that founders
`x` and `y` both list. -/
def sharedEmployers (founders : List Founder) (x y : String) : List String :=
  (allEmpNames founders).filter (fun k =>
    listsEmp founders x k && listsEmp founders y k)

/-- Raw betweenness in the specification's phrasing: for every (unordered)
node pair, the fraction of weighted shortest paths passing through the
node, with no normalization factor. -/
def specRawBetweenness (g : Graph) (v : String) : ℚ :=
  ((pairsOf g.nodes).map (fun st => pairDep g st.1 st.2 v)).sum

/-- Number of education records across all stored founders whose trimmed
institution name equals `k`. -/
def instRecordCount (founders : List Founder) (k : String) : Nat :=
  ((toDictF founders).flatMap (fun f =>
    f.education.filter (fun ed => pyStrip ed.institution == k))).length

/-- Number of distinct stored founders who list trimmed institution name
`k`. -/
def distinctFounderCount (founders : List Founder) (k : String) : Nat :=
  ((toDictF founders).filter (fun f =>
    f.education.any (fun ed => pyStrip ed.institution == k))).length

/-! ### Concrete inputs used by counterexamples and witnesses -/

/-- Founder sharing companies `x` and `y` with `c2B`. -/
def c2A : Founder := { id := "a", name := "A", companies := ["x", "y"] }

/-- Founder sharing companies `x` and `y` with `c2A`. -/
def c2B : Founder := { id := "b", name := "B", companies := ["x", "y"] }

/-- Founder whose company list names the same identifier twice. -/
def c3Dup : Founder := { id := "f1", name := "F1", companies := ["x", "x"] }

/-- Founders `s`, `m`, `t` of the weight-convention scenario: edge s–t of
weight 3 (shared company), edges s–m and m–t of weight 1 (shared
institutions). -/
def c1S : Founder :=
  { id := "s", name := "S", companies := ["x"], education := [⟨"I1"⟩] }

/-- Middle founder of the weight-convention scenario. -/
def c1M : Founder := { id := "m", name := "M", education := [⟨"I1"⟩, ⟨"I2"⟩] }

/-- Target founder of the weight-convention scenario. -/
def c1T : Founder :=
  { id := "t", name := "T", companies := ["x"], education := [⟨"I2"⟩] }

/-- Variant of `c1S` additionally sharing company `y` with the middle
founder, raising the s–m edge weight from 1 to 4. -/
def c1S' : Founder :=
  { id := "s", name := "S", companies := ["x", "y"], education := [⟨"I1"⟩] }

/-- Variant of `c1M` for the increased-weight graph. -/
def c1M' : Founder :=
  { id := "m", name := "M", companies := ["y"], education := [⟨"I1"⟩, ⟨"I2"⟩] }

/-- Baseline graph of the weight-convention scenario. -/
def c1Graph : Graph := builtGraph [c1S, c1M, c1T] []

/-- Graph identical to `c1Graph` except the s–m edge weight is 4 instead
of 1. -/
def c1Graph' : Graph := builtGraph [c1S', c1M', c1T] []

/-- Founders forming a four-node path a–b–c–d of co-founder edges. -/
def c4A : Founder := { id := "a", name := "A", companies := ["c1"] }

/-- Second node of the four-node path. -/
def c4B : Founder := { id := "b", name := "B", companies := ["c1", "c2"] }

/-- Third node of the four-node path. -/
def c4C : Founder := { id := "c", name := "C", companies := ["c2", "c3"] }

/-- Fourth node of the four-node path. -/
def c4D : Founder := { id := "d", name := "D", companies := ["c3"] }

/-- Path graph on four nodes with all edge weights 3. -/
def c4Graph : Graph := builtGraph [c4A, c4B, c4C, c4D] []

/-- Founder sharing only institution `MIT` with `c5F`. -/
def c5E : Founder := { id := "e", name := "E", education := [⟨"MIT"⟩] }

/-- Founder sharing only institution `MIT` with `c5E`. -/
def c5F : Founder := { id := "f", name := "F", education := [⟨"MIT"⟩] }

/-- Founder with two education records naming the same institution. -/
def c6G : Founder := { id := "g", name := "G", education := [⟨"MIT"⟩, ⟨"MIT"⟩] }

/-- Eleven distinct institution names `i0`, …, `i10`. -/
def c7Insts : List Education :=
  (List.range 11).map (fun i => ⟨"i" ++ toString i⟩)

/-- Three founders each listing all eleven institutions, so that every
institution has founder count 3 but only ten fit in the top-10 ranking. -/
def c7Founders : List Founder :=
  [{ id := "u1", name := "U1", education := c7Insts },
   { id := "u2", name := "U2", education := c7Insts },
   { id := "u3", name := "U3", education := c7Insts }]

/-- Founders sharing exactly one company and one institution. -/
def c8C : Founder :=
  { id := "c", name := "C", companies := ["x"], education := [⟨"IIT"⟩] }

/-- Second founder of the company-plus-institution pair (institution name
given with surrounding whitespace to exercise trimming). -/
def c8D : Founder :=
  { id := "d", name := "D", companies := ["x"], education := [⟨" IIT "⟩] }

/-- Founder with a whitespace-only employer who founded company `z`. -/
def c10H : Founder :=
  { id := "h", name := "H", companies := ["z"], work_history := [⟨"  "⟩] }

/-- Founder with an empty employer who founded company `z`. -/
def c10I : Founder :=
  { id := "i", name := "I", companies := ["z"], work_history := [⟨""⟩] }

/-- Company founded by both empty-employer founders. -/
def c10Z : Company := { id := "z", name := "Zenith" }

/-! ## Lemmas

### Unordered-pair keys -/

theorem pairMatch_iff (p q x y : String) :
    pairMatch p q x y = true ↔ (p = x ∧ q = y) ∨ (p = y ∧ q = x) := by
  simp [pairMatch, Bool.or_eq_true, Bool.and_eq_true, decide_eq_true_eq]

theorem pairMatch_refl (x y : String) : pairMatch x y x y = true := by
  simp [pairMatch_iff]

theorem pairMatch_swap (p q x y : String) :
    pairMatch p q y x = pairMatch p q x y := by
  simp only [pairMatch]
  exact Bool.or_comm _ _

theorem pairMatch_symm (p q x y : String) :
    pairMatch p q x y = pairMatch x y p q := by
  rw [Bool.eq_iff_iff, pairMatch_iff, pairMatch_iff]
  tauto

theorem pairMatch_trans {a b x y p q : String} (h₁ : pairMatch a b x y = true)
    (h₂ : pairMatch x y p q = true) : pairMatch a b p q = true := by
  rw [pairMatch_iff] at h₁ h₂ ⊢
  rcases h₁ with ⟨rfl, rfl⟩ | ⟨rfl, rfl⟩ <;> tauto

/-! ### First-occurrence deduplication -/

theorem mem_dedupFirstAux {α : Type} [DecidableEq α] (seen l : List α)
    (a : α) : a ∈ dedupFirstAux seen l ↔ a ∈ l ∧ a ∉ seen := by
  induction l generalizing seen with
  | nil => simp [dedupFirstAux]
  | cons b rest ih =>
    by_cases hb : b ∈ seen
    · rw [dedupFirstAux, if_pos hb, ih]
      constructor
      · rintro ⟨h₁, h₂⟩
        exact ⟨List.mem_cons_of_mem _ h₁, h₂⟩
      · rintro ⟨h₁, h₂⟩
        rcases List.mem_cons.1 h₁ with rfl | h₁'
        · exact absurd hb h₂
        · exact ⟨h₁', h₂⟩
    · rw [dedupFirstAux, if_neg hb]
      constructor
      · intro h
        rcases List.mem_cons.1 h with rfl | h'
        · exact ⟨List.mem_cons_self _ _, hb⟩
        · obtain ⟨h₁, h₂⟩ := (ih _).1 h'
          exact ⟨List.mem_cons_of_mem _ h₁,
            fun hc => h₂ (List.mem_cons_of_mem _ hc)⟩
      · rintro ⟨h₁, h₂⟩
        rcases List.mem_cons.1 h₁ with rfl | h₁'
        · exact List.mem_cons_self _ _
        · by_cases hab : a = b
          · subst hab; exact List.mem_cons_self _ _
          · refine List.mem_cons_of_mem _ ((ih _).2 ⟨h₁', ?_⟩)
            intro hc
            rcases List.mem_cons.1 hc with h | h
            · exact hab h
            · exact h₂ h

theorem mem_dedupFirst {α : Type} [DecidableEq α] (l : List α) (a : α) :
    a ∈ dedupFirst l ↔ a ∈ l := by
  simp [dedupFirst, mem_dedupFirstAux]

theorem nodup_dedupFirstAux {α : Type} [DecidableEq α] (seen l : List α) :
    (dedupFirstAux seen l).Nodup := by
  induction l generalizing seen with
  | nil => simp [dedupFirstAux]
  | cons b rest ih =>
    by_cases hb : b ∈ seen
    · rw [dedupFirstAux, if_pos hb]
      exact ih seen
    · rw [dedupFirstAux, if_neg hb]
      refine List.Nodup.cons ?_ (ih (b :: seen))
      intro hmem
      exact ((mem_dedupFirstAux _ _ _).1 hmem).2 (List.mem_cons_self b seen)

theorem nodup_dedupFirst {α : Type} [DecidableEq α] (l : List α) :
    (dedupFirst l).Nodup :=
  nodup_dedupFirstAux [] l

theorem dedupFirstAux_congr {α : Type} [DecidableEq α] {s₁ s₂ : List α}
    (l : List α) (h : ∀ a, a ∈ s₁ ↔ a ∈ s₂) :
    dedupFirstAux s₁ l = dedupFirstAux s₂ l := by
  induction l generalizing s₁ s₂ with
  | nil => rfl
  | cons b rest ih =>
    by_cases hb : b ∈ s₁
    · rw [dedupFirstAux, if_pos hb, dedupFirstAux, if_pos ((h b).1 hb)]
      exact ih h
    · rw [dedupFirstAux, if_neg hb, dedupFirstAux, if_neg (fun hc => hb ((h b).2 hc))]
      refine congrArg (b :: ·) (ih ?_)
      intro a
      simp only [List.mem_cons]
      exact or_congr Iff.rfl (h a)

/-! ### Grouping (`defaultdict(list)` loops) -/

theorem groupInsert_lookup {κ α : Type} [DecidableEq κ]
    (m : List (κ × List α)) (k : κ) (v : α) (k' : κ) :
    groupLookup (groupInsert m k v) k' =
      groupLookup m k' ++ if k = k' then [v] else [] := by
  induction m with
  | nil =>
    by_cases h : k = k' <;> simp [groupInsert, groupLookup, List.find?, h]
  | cons g rest ih =>
    obtain ⟨k₀, vs⟩ := g
    by_cases h₀ : k₀ = k
    · subst h₀
      by_cases h' : k₀ = k'
      · subst h'
        simp [groupInsert, groupLookup, List.find?]
      · simp [groupInsert, groupLookup, List.find?, h']
    · by_cases h' : k₀ = k'
      · subst h'
        have hkk : ¬ k = k₀ := fun h => h₀ h.symm
        simp [groupInsert, groupLookup, List.find?, h₀, hkk]
      · simp only [groupInsert, if_neg h₀]
        have l₁ : groupLookup ((k₀, vs) :: groupInsert rest k v) k' =
            groupLookup (groupInsert rest k v) k' := by
          simp [groupLookup, List.find?, h']
        have l₂ : groupLookup ((k₀, vs) :: rest) k' = groupLookup rest k' := by
          simp [groupLookup, List.find?, h']
        rw [l₁, l₂, ih]

theorem groupFold_lookup {κ α : Type} [DecidableEq κ]
    (l : List (κ × α)) (m : List (κ × List α)) (k : κ) :
    groupLookup (l.foldl (fun m kv => groupInsert m kv.1 kv.2) m) k =
      groupLookup m k ++ (l.filter (fun kv => kv.1 = k)).map Prod.snd := by
  induction l generalizing m with
  | nil => simp
  | cons kv rest ih =>
    rw [List.foldl_cons, ih]
    by_cases h : kv.1 = k
    · simp [groupInsert_lookup, h, List.filter_cons]
    · simp [groupInsert_lookup, h, List.filter_cons]

theorem groupPairs_lookup {κ α : Type} [DecidableEq κ]
    (l : List (κ × α)) (k : κ) :
    groupLookup (groupPairs l) k =
      (l.filter (fun kv => kv.1 = k)).map Prod.snd := by
  simpa [groupLookup, List.find?] using groupFold_lookup l [] k

theorem groupInsert_keys {κ α : Type} [DecidableEq κ]
    (m : List (κ × List α)) (k : κ) (v : α) :
    (groupInsert m k v).map Prod.fst =
      if k ∈ m.map Prod.fst then m.map Prod.fst else m.map Prod.fst ++ [k] := by
  induction m with
  | nil => simp [groupInsert]
  | cons g rest ih =>
    obtain ⟨k₀, vs⟩ := g
    by_cases h₀ : k₀ = k
    · subst h₀; simp [groupInsert]
    · have : ¬ k = k₀ := fun h => h₀ h.symm
      by_cases hmem : k ∈ rest.map Prod.fst <;>
        simp [groupInsert, h₀, ih, hmem, this]

theorem groupFold_keys {κ α : Type} [DecidableEq κ]
    (l : List (κ × α)) (m : List (κ × List α)) :
    (l.foldl (fun m kv => groupInsert m kv.1 kv.2) m).map Prod.fst =
      m.map Prod.fst ++ dedupFirstAux (m.map Prod.fst) (l.map Prod.fst) := by
  induction l generalizing m with
  | nil => simp [dedupFirstAux]
  | cons kv rest ih =>
    rw [List.foldl_cons, ih]
    by_cases h : kv.1 ∈ m.map Prod.fst
    · rw [groupInsert_keys, if_pos h]
      simp [dedupFirstAux, h]
    · rw [groupInsert_keys, if_neg h]
      have hcongr : dedupFirstAux (m.map Prod.fst ++ [kv.1]) (rest.map Prod.fst) =
          dedupFirstAux (kv.1 :: m.map Prod.fst) (rest.map Prod.fst) := by
        refine dedupFirstAux_congr _ (fun a => ?_)
        simp only [List.mem_append, List.mem_singleton, List.mem_cons]
        tauto
      rw [hcongr]
      simp [dedupFirstAux, h, List.append_assoc]

theorem groupPairs_keys {κ α : Type} [DecidableEq κ] (l : List (κ × α)) :
    (groupPairs l).map Prod.fst = dedupFirst (l.map Prod.fst) := by
  simpa [dedupFirst] using groupFold_keys l []

theorem groupPairs_keys_nodup {κ α : Type} [DecidableEq κ] (l : List (κ × α)) :
    ((groupPairs l).map Prod.fst).Nodup := by
  rw [groupPairs_keys]; exact nodup_dedupFirst _

theorem lookup_of_mem_nodupKeys {κ α : Type} [DecidableEq κ]
    {m : List (κ × List α)} {g : κ × List α}
    (hnd : (m.map Prod.fst).Nodup) (hg : g ∈ m) :
    groupLookup m g.1 = g.2 := by
  induction m with
  | nil => cases hg
  | cons g₀ rest ih =>
    rcases List.mem_cons.1 hg with rfl | hg'
    · simp [groupLookup, List.find?]
    · have h₀ : g₀.1 ∉ rest.map Prod.fst := (List.nodup_cons.1 hnd).1
      have hne : ¬ g₀.1 = g.1 := by
        intro h
        exact h₀ (h ▸ List.mem_map.2 ⟨g, hg', rfl⟩)
      have := ih (List.nodup_cons.1 hnd).2 hg'
      simpa [groupLookup, List.find?, hne] using this

theorem mem_groupPairs_lookup {κ α : Type} [DecidableEq κ]
    {l : List (κ × α)} {g : κ × List α} (hg : g ∈ groupPairs l) :
    g.2 = (l.filter (fun kv => kv.1 = g.1)).map Prod.snd := by
  rw [← groupPairs_lookup]
  exact (lookup_of_mem_nodupKeys (groupPairs_keys_nodup l) hg).symm

/-! ### Counters (`collections.Counter` loops) -/

theorem counterBump_lookup {κ : Type} [DecidableEq κ]
    (m : List (κ × Nat)) (k k' : κ) :
    counterLookup (counterBump m k) k' =
      counterLookup m k' + if k = k' then 1 else 0 := by
  induction m with
  | nil =>
    by_cases h : k = k' <;> simp [counterBump, counterLookup, List.find?, h]
  | cons g rest ih =>
    obtain ⟨k₀, c⟩ := g
    by_cases h₀ : k₀ = k
    · subst h₀
      by_cases h' : k₀ = k'
      · subst h'; simp [counterBump, counterLookup, List.find?]
      · simp [counterBump, counterLookup, List.find?, h']
    · by_cases h' : k₀ = k'
      · subst h'
        have hkk : ¬ k = k₀ := fun h => h₀ h.symm
        simp [counterBump, counterLookup, List.find?, h₀, hkk]
      · simp only [counterBump, if_neg h₀]
        have l₁ : counterLookup ((k₀, c) :: counterBump rest k) k' =
            counterLookup (counterBump rest k) k' := by
          simp [counterLookup, List.find?, h']
        have l₂ : counterLookup ((k₀, c) :: rest) k' = counterLookup rest k' := by
          simp [counterLookup, List.find?, h']
        rw [l₁, l₂, ih]

theorem counterFold_generalized {κ : Type} [DecidableEq κ]
    (l : List κ) (m : List (κ × Nat)) (k : κ) :
    counterLookup (l.foldl counterBump m) k =
      counterLookup m k + l.countP (fun a => a = k) := by
  induction l generalizing m with
  | nil => simp
  | cons a rest ih =>
    rw [List.foldl_cons, ih]
    by_cases h : a = k
    · simp [counterBump_lookup, h, List.countP_cons, Nat.add_assoc, Nat.add_comm]
    · simp [counterBump_lookup, h, List.countP_cons]

theorem counterFold_lookup {κ : Type} [DecidableEq κ] (l : List κ) (k : κ) :
    counterLookup (counterFold l) k = l.countP (fun a => a = k) := by
  simpa [counterLookup, List.find?] using counterFold_generalized l [] k

theorem counterBump_keys {κ : Type} [DecidableEq κ] (m : List (κ × Nat))
    (k : κ) :
    (counterBump m k).map Prod.fst =
      if k ∈ m.map Prod.fst then m.map Prod.fst else m.map Prod.fst ++ [k] := by
  induction m with
  | nil => simp [counterBump]
  | cons g rest ih =>
    obtain ⟨k₀, c⟩ := g
    by_cases h₀ : k₀ = k
    · subst h₀; simp [counterBump]
    · have : ¬ k = k₀ := fun h => h₀ h.symm
      by_cases hmem : k ∈ rest.map Prod.fst <;>
        simp [counterBump, h₀, ih, hmem, this]

theorem counterFold_keys_general {κ : Type} [DecidableEq κ] (l : List κ)
    (m : List (κ × Nat)) :
    (l.foldl counterBump m).map Prod.fst =
      m.map Prod.fst ++ dedupFirstAux (m.map Prod.fst) l := by
  induction l generalizing m with
  | nil => simp [dedupFirstAux]
  | cons a rest ih =>
    rw [List.foldl_cons, ih]
    by_cases h : a ∈ m.map Prod.fst
    · rw [counterBump_keys, if_pos h]
      simp [dedupFirstAux, h]
    · rw [counterBump_keys, if_neg h]
      have hcongr : dedupFirstAux (m.map Prod.fst ++ [a]) rest =
          dedupFirstAux (a :: m.map Prod.fst) rest := by
        refine dedupFirstAux_congr _ (fun b => ?_)
        simp only [List.mem_append, List.mem_singleton, List.mem_cons]
        tauto
      rw [hcongr]
      simp [dedupFirstAux, h, List.append_assoc]

theorem counterFold_keys {κ : Type} [DecidableEq κ] (l : List κ) :
    (counterFold l).map Prod.fst = dedupFirst l := by
  simpa [dedupFirst] using counterFold_keys_general l []

theorem counterLookup_of_mem_nodupKeys {κ : Type} [DecidableEq κ]
    {m : List (κ × Nat)} {g : κ × Nat}
    (hnd : (m.map Prod.fst).Nodup) (hg : g ∈ m) :
    counterLookup m g.1 = g.2 := by
  induction m with
  | nil => cases hg
  | cons g₀ rest ih =>
    rcases List.mem_cons.1 hg with rfl | hg'
    · simp [counterLookup, List.find?]
    · have h₀ : g₀.1 ∉ rest.map Prod.fst := (List.nodup_cons.1 hnd).1
      have hne : ¬ g₀.1 = g.1 := by
        intro h
        exact h₀ (h ▸ List.mem_map.2 ⟨g, hg', rfl⟩)
      have := ih (List.nodup_cons.1 hnd).2 hg'
      simpa [counterLookup, List.find?, hne] using this

theorem mem_counterFold {κ : Type} [DecidableEq κ] {l : List κ}
    {g : κ × Nat} (hg : g ∈ counterFold l) :
    g.2 = l.countP (fun a => a = g.1) ∧ g.1 ∈ l := by
  have hnd : ((counterFold l).map Prod.fst).Nodup := by
    rw [counterFold_keys]; exact nodup_dedupFirst _
  constructor
  · rw [← counterFold_lookup]
    exact (counterLookup_of_mem_nodupKeys hnd hg).symm
  · have : g.1 ∈ (counterFold l).map Prod.fst := List.mem_map.2 ⟨g, hg, rfl⟩
    rw [counterFold_keys, mem_dedupFirst] at this
    exact this

/-! ### Pair enumeration -/

theorem countP_eqKey_of_nodup {α : Type} [DecidableEq α] {l : List α}
    (hnd : l.Nodup) (y : α) :
    l.countP (fun b => b = y) = if y ∈ l then 1 else 0 := by
  induction l with
  | nil => simp
  | cons a rest ih =>
    obtain ⟨ha, hrest⟩ := List.nodup_cons.1 hnd
    rw [List.countP_cons, ih hrest]
    by_cases hay : a = y
    · subst hay
      simp [ha]
    · have h2 : (y ∈ a :: rest) ↔ (y ∈ rest) := by
        rw [List.mem_cons]
        exact or_iff_right (fun h => hay h.symm)
      simp [hay, h2]

theorem pairsOf_any_iff {x y : String} (hxy : x ≠ y) (l : List String) :
    ((pairsOf l).any (fun p => pairMatch p.1 p.2 x y) = true) ↔
      x ∈ l ∧ y ∈ l := by
  induction l with
  | nil => simp [pairsOf]
  | cons a rest ih =>
    rw [pairsOf, List.any_append]
    simp only [Bool.or_eq_true, List.any_eq_true, List.mem_map]
    constructor
    · rintro (⟨p, ⟨b, hb, rfl⟩, hm⟩ | h)
      · rcases (pairMatch_iff _ _ _ _).1 hm with ⟨rfl, rfl⟩ | ⟨rfl, rfl⟩
        · exact ⟨List.mem_cons_self _ _, List.mem_cons_of_mem _ hb⟩
        · exact ⟨List.mem_cons_of_mem _ hb, List.mem_cons_self _ _⟩
      · obtain ⟨hx, hy⟩ := ih.1 (List.any_eq_true.2 h)
        exact ⟨List.mem_cons_of_mem _ hx, List.mem_cons_of_mem _ hy⟩
    · rintro ⟨hx, hy⟩
      rcases List.mem_cons.1 hx with rfl | hx'
      · rcases List.mem_cons.1 hy with rfl | hy'
        · exact absurd rfl hxy
        · exact Or.inl ⟨(x, y), ⟨y, hy', rfl⟩, pairMatch_refl x y⟩
      · rcases List.mem_cons.1 hy with rfl | hy'
        · refine Or.inl ⟨(y, x), ⟨x, hx', rfl⟩, ?_⟩
          rw [pairMatch_iff]
          exact Or.inr ⟨rfl, rfl⟩
        · exact Or.inr (List.any_eq_true.1 (ih.2 ⟨hx', hy'⟩))

theorem pairsOf_countP {x y : String} (hxy : x ≠ y) {l : List String}
    (hnd : l.Nodup) :
    (pairsOf l).countP (fun p => pairMatch p.1 p.2 x y) =
      if x ∈ l ∧ y ∈ l then 1 else 0 := by
  induction l with
  | nil => simp [pairsOf]
  | cons a rest ih =>
    obtain ⟨ha, hrest⟩ := List.nodup_cons.1 hnd
    rw [pairsOf, List.countP_append, List.countP_map]
    by_cases hax : a = x
    · subst hax
      have hcongr : rest.countP
          ((fun p : String × String => pairMatch p.1 p.2 a y) ∘ fun b => (a, b)) =
          rest.countP (fun b => b = y) := by
        refine List.countP_congr (fun b _ => ?_)
        show pairMatch a b a y = true ↔ decide (b = y) = true
        rw [pairMatch_iff, decide_eq_true_eq]
        constructor
        · rintro (⟨_, rfl⟩ | ⟨h, _⟩)
          · rfl
          · exact absurd h hxy
        · rintro rfl; exact Or.inl ⟨rfl, rfl⟩
      have hnx : ¬ (a ∈ rest ∧ y ∈ rest) := fun hc => ha hc.1
      rw [hcongr, countP_eqKey_of_nodup hrest, ih hrest, if_neg hnx]
      have hy' : (y ∈ a :: rest) ↔ (y ∈ rest) := by
        rw [List.mem_cons]
        exact or_iff_right (fun h => hxy h.symm)
      simp [hy', List.mem_cons_self]
    · by_cases hay : a = y
      · subst hay
        have hcongr : rest.countP
            ((fun p : String × String => pairMatch p.1 p.2 x a) ∘ fun b => (a, b)) =
            rest.countP (fun b => b = x) := by
          refine List.countP_congr (fun b _ => ?_)
          show pairMatch a b x a = true ↔ decide (b = x) = true
          rw [pairMatch_iff, decide_eq_true_eq]
          constructor
          · rintro (⟨h, _⟩ | ⟨_, rfl⟩)
            · exact absurd h hax
            · rfl
          · rintro rfl; exact Or.inr ⟨rfl, rfl⟩
        have hnx : ¬ (x ∈ rest ∧ a ∈ rest) := fun hc => ha hc.2
        rw [hcongr, countP_eqKey_of_nodup hrest, ih hrest, if_neg hnx]
        have hx' : (x ∈ a :: rest) ↔ (x ∈ rest) := by
          rw [List.mem_cons]
          exact or_iff_right (fun h => hax h.symm)
        simp [hx', List.mem_cons_self]
      · have hcongr : rest.countP
            ((fun p : String × String => pairMatch p.1 p.2 x y) ∘ fun b => (a, b)) =
            rest.countP (fun _ => False) := by
          refine List.countP_congr (fun b _ => ?_)
          show pairMatch a b x y = true ↔ decide False = true
          rw [pairMatch_iff]
          simp only [decide_False, Bool.false_eq_true, iff_false]
          rintro (⟨h, _⟩ | ⟨h, _⟩)
          · exact hax h
          · exact hay h
        have hx' : (x ∈ a :: rest) ↔ (x ∈ rest) := by
          rw [List.mem_cons]
          exact or_iff_right (fun h => hax h.symm)
        have hy' : (y ∈ a :: rest) ↔ (y ∈ rest) := by
          rw [List.mem_cons]
          exact or_iff_right (fun h => hay h.symm)
        rw [hcongr, ih hrest]
        simp [hx', hy']

/-! ### Graph-operation step lemmas -/

theorem any_congr_fn {α : Type} {p q : α → Bool} (l : List α)
    (h : ∀ a ∈ l, p a = q a) : l.any p = l.any q := by
  induction l with
  | nil => rfl
  | cons a rest ih =>
    rw [List.any_cons, List.any_cons, h a (List.mem_cons_self a rest),
      ih (fun b hb => h b (List.mem_cons_of_mem a hb))]

theorem hasEdge_iff_exists {g : Graph} {x y : String} :
    g.hasEdge x y = true ↔ ∃ e ∈ g.edgeList, pairMatch e.a e.b x y = true :=
  List.any_eq_true

theorem weightOf_eq_zero_of_not_hasEdge {g : Graph} {x y : String}
    (h : g.hasEdge x y = false) : weightOf g x y = 0 := by
  have : g.edgeList.filter (fun e => pairMatch e.a e.b x y) = [] := by
    rw [List.filter_eq_nil_iff]
    intro e he hm
    exact absurd (hasEdge_iff_exists.2 ⟨e, he, hm⟩) (by simp [h])
  simp [weightOf, this]

theorem hasEdge_trans {g : Graph} {x y p q : String}
    (hE : g.hasEdge x y = true) (hm : pairMatch x y p q = true) :
    g.hasEdge p q = true := by
  obtain ⟨e, he, hme⟩ := hasEdge_iff_exists.1 hE
  exact hasEdge_iff_exists.2 ⟨e, he, pairMatch_trans hme hm⟩

theorem edgeCount_eq_one {g : Graph} {x y : String} (h1 : OnePer g)
    (hE : g.hasEdge x y = true) : edgeCountOf g x y = 1 := by
  obtain ⟨e, he, hme⟩ := hasEdge_iff_exists.1 hE
  have hpos : 0 < edgeCountOf g x y := by
    rw [edgeCountOf, List.length_pos]
    intro hnil
    rw [List.filter_eq_nil_iff] at hnil
    exact hnil e he hme
  exact Nat.le_antisymm (h1 x y) hpos

theorem addNode_edgeList (g : Graph) (x : String) :
    (g.addNode x).edgeList = g.edgeList := by
  unfold Graph.addNode
  split <;> rfl

theorem addNode_hasEdge (g : Graph) (x p q : String) :
    (g.addNode x).hasEdge p q = g.hasEdge p q := by
  unfold Graph.hasEdge
  rw [addNode_edgeList]

theorem addEdge_edgeList_cases (g : Graph) (x y : String) (w : ℚ)
    (r c : String) :
    (g.addEdge x y w r c).edgeList =
      if g.hasEdge x y = true then
        g.edgeList.map (fun e =>
          if pairMatch e.a e.b x y then { e with weight := w, rel := r, ctx := c }
          else e)
      else g.edgeList ++ [⟨x, y, w, r, c⟩] := by
  unfold Graph.addEdge
  have hl : ((g.addNode x).addNode y).edgeList = g.edgeList := by
    rw [addNode_edgeList, addNode_edgeList]
  have hh : ((g.addNode x).addNode y).hasEdge x y = g.hasEdge x y := by
    rw [addNode_hasEdge, addNode_hasEdge]
  split
  · rw [if_pos (by rw [hh]; assumption)]
    simp only [hl]
  · rw [if_neg (by rw [hh]; assumption)]
    simp only [hl]

theorem filter_map_keyPreserving (l : List GEdge) (p q : String)
    (f : GEdge → GEdge) (hf : ∀ e, (f e).a = e.a ∧ (f e).b = e.b) :
    (l.map f).filter (fun e => pairMatch e.a e.b p q) =
      (l.filter (fun e => pairMatch e.a e.b p q)).map f := by
  rw [List.filter_map]
  refine congrArg _ (List.filter_congr (fun e _ => ?_))
  show pairMatch (f e).a (f e).b p q = pairMatch e.a e.b p q
  rw [(hf e).1, (hf e).2]

theorem addEdge_weightOf {g : Graph} (h1 : OnePer g) (x y : String) (w : ℚ)
    (r c : String) (p q : String) :
    weightOf (g.addEdge x y w r c) p q =
      if pairMatch x y p q = true then w else weightOf g p q := by
  rw [weightOf, addEdge_edgeList_cases]
  by_cases hE : g.hasEdge x y = true
  · rw [if_pos hE]
    rw [filter_map_keyPreserving _ _ _ _ (fun e => by
      by_cases h : pairMatch e.a e.b x y = true <;> simp [h])]
    by_cases hm : pairMatch x y p q = true
    · rw [if_pos hm]
      have hcount : edgeCountOf g p q = 1 :=
        edgeCount_eq_one h1 (hasEdge_trans hE hm)
      obtain ⟨e₀, he₀⟩ := List.length_eq_one.1 hcount
      rw [edgeCountOf] at hcount
      have hmem : e₀ ∈ g.edgeList.filter (fun e => pairMatch e.a e.b p q) := by
        rw [he₀]; exact List.mem_singleton.2 rfl
      have he₀m : pairMatch e₀.a e₀.b x y = true := by
        have hpq : pairMatch e₀.a e₀.b p q = true :=
          (List.mem_filter.1 hmem).2
        have : pairMatch p q x y = true := by rw [pairMatch_symm]; exact hm
        exact pairMatch_trans hpq this
      rw [he₀]
      simp [he₀m]
    · rw [if_neg hm]
      have : ∀ e ∈ g.edgeList.filter (fun e => pairMatch e.a e.b p q),
          (if pairMatch e.a e.b x y then { e with weight := w, rel := r, ctx := c }
            else e) = e := by
        intro e he
        have hpq : pairMatch e.a e.b p q = true := (List.mem_filter.1 he).2
        have hxy : pairMatch e.a e.b x y = false := by
          rw [← Bool.not_eq_true]
          intro h
          have h' : pairMatch x y e.a e.b = true := by
            rw [pairMatch_symm]; exact h
          exact absurd (pairMatch_trans h' hpq) hm
        simp [hxy]
      rw [List.map_congr_left this, List.map_id', weightOf]
  · rw [if_neg hE]
    rw [List.filter_append]
    by_cases hm : pairMatch x y p q = true
    · rw [if_pos hm]
      have hnil : g.edgeList.filter (fun e => pairMatch e.a e.b p q) = [] := by
        rw [List.filter_eq_nil_iff]
        intro e he hpq
        have : pairMatch p q x y = true := by rw [pairMatch_symm]; exact hm
        have hm' : pairMatch e.a e.b x y = true := pairMatch_trans hpq this
        exact absurd (hasEdge_iff_exists.2 ⟨e, he, hm'⟩) (by simp [hE])
      simp [hnil, hm]
    · rw [if_neg hm]
      have : pairMatch x y p q = false := by
        rw [← Bool.not_eq_true]; exact hm
      simp [weightOf, this]

theorem addEdge_hasEdge {g : Graph} (x y : String) (w : ℚ) (r c : String)
    (p q : String) :
    (g.addEdge x y w r c).hasEdge p q = (g.hasEdge p q || pairMatch x y p q) := by
  unfold Graph.hasEdge
  rw [addEdge_edgeList_cases]
  by_cases hE : g.hasEdge x y = true
  · rw [if_pos hE]
    have hsame : (g.edgeList.map (fun e =>
        if pairMatch e.a e.b x y then { e with weight := w, rel := r, ctx := c }
        else e)).any (fun e => pairMatch e.a e.b p q) =
        g.edgeList.any (fun e => pairMatch e.a e.b p q) := by
      rw [List.any_map]
      refine any_congr_fn _ (fun e _ => ?_)
      show pairMatch _ _ p q = pairMatch e.a e.b p q
      by_cases h : pairMatch e.a e.b x y = true <;> simp [h]
    rw [hsame]
    by_cases hm : pairMatch x y p q = true
    · have : g.hasEdge p q = true := hasEdge_trans hE hm
      unfold Graph.hasEdge at this
      simp [this, hm]
    · have : pairMatch x y p q = false := by
        rw [← Bool.not_eq_true]; exact hm
      simp [this]
  · rw [if_neg hE, List.any_append]
    simp [Graph.hasEdge]

theorem addEdge_onePer {g : Graph} (h1 : OnePer g) (x y : String) (w : ℚ)
    (r c : String) : OnePer (g.addEdge x y w r c) := by
  intro p q
  rw [OnePer] at h1
  rw [edgeCountOf, addEdge_edgeList_cases]
  by_cases hE : g.hasEdge x y = true
  · rw [if_pos hE]
    rw [filter_map_keyPreserving _ _ _ _ (fun e => by
      by_cases h : pairMatch e.a e.b x y = true <;> simp [h])]
    rw [List.length_map]
    exact h1 p q
  · rw [if_neg hE, List.filter_append]
    by_cases hm : pairMatch x y p q = true
    · have hnil : g.edgeList.filter (fun e => pairMatch e.a e.b p q) = [] := by
        rw [List.filter_eq_nil_iff]
        intro e he hpq
        have : pairMatch p q x y = true := by rw [pairMatch_symm]; exact hm
        exact absurd (hasEdge_iff_exists.2 ⟨e, he, pairMatch_trans hpq this⟩)
          (by simp [hE])
      simp [hnil, hm]
    · have : pairMatch x y p q = false := by
        rw [← Bool.not_eq_true]; exact hm
      rw [List.length_append]
      have h2 : (List.filter (fun e => pairMatch e.a e.b p q) [(⟨x, y, w, r, c⟩ : GEdge)]).length = 0 := by
        simp [this]
      rw [h2, Nat.add_zero]
      exact h1 p q

theorem bumpWeight_weightOf {g : Graph} (h1 : OnePer g) {x y : String}
    (hE : g.hasEdge x y = true) (d : ℚ) (p q : String) :
    weightOf (g.bumpWeight x y d) p q =
      weightOf g p q + if pairMatch x y p q = true then d else 0 := by
  rw [weightOf, Graph.bumpWeight]
  rw [filter_map_keyPreserving _ _ _ _ (fun e => by
    by_cases h : pairMatch e.a e.b x y = true <;> simp [h])]
  by_cases hm : pairMatch x y p q = true
  · rw [if_pos hm]
    have hcount : edgeCountOf g p q = 1 :=
      edgeCount_eq_one h1 (hasEdge_trans hE hm)
    obtain ⟨e₀, he₀⟩ := List.length_eq_one.1 hcount
    have hmem : e₀ ∈ g.edgeList.filter (fun e => pairMatch e.a e.b p q) := by
      rw [he₀]; exact List.mem_singleton.2 rfl
    have he₀m : pairMatch e₀.a e₀.b x y = true := by
      have hpq : pairMatch e₀.a e₀.b p q = true := (List.mem_filter.1 hmem).2
      have : pairMatch p q x y = true := by rw [pairMatch_symm]; exact hm
      exact pairMatch_trans hpq this
    rw [weightOf, he₀]
    simp [he₀m]
  · rw [if_neg hm]
    have : ∀ e ∈ g.edgeList.filter (fun e => pairMatch e.a e.b p q),
        (if pairMatch e.a e.b x y then { e with weight := e.weight + d }
          else e) = e := by
      intro e he
      have hpq : pairMatch e.a e.b p q = true := (List.mem_filter.1 he).2
      have hxy : pairMatch e.a e.b x y = false := by
        rw [← Bool.not_eq_true]
        intro h
        have h' : pairMatch x y e.a e.b = true := by
          rw [pairMatch_symm]; exact h
        exact absurd (pairMatch_trans h' hpq) hm
      simp [hxy]
    rw [List.map_congr_left this, List.map_id', weightOf, add_zero]

theorem bumpWeight_hasEdge (g : Graph) (x y : String) (d : ℚ) (p q : String) :
    (g.bumpWeight x y d).hasEdge p q = g.hasEdge p q := by
  unfold Graph.hasEdge Graph.bumpWeight
  dsimp only
  rw [List.any_map]
  refine any_congr_fn _ (fun e _ => ?_)
  show pairMatch _ _ p q = pairMatch e.a e.b p q
  by_cases h : pairMatch e.a e.b x y = true <;> simp [h]

theorem bumpWeight_onePer {g : Graph} (h1 : OnePer g) (x y : String)
    (d : ℚ) : OnePer (g.bumpWeight x y d) := by
  intro p q
  rw [edgeCountOf, Graph.bumpWeight]
  dsimp only
  rw [filter_map_keyPreserving _ _ _ _ (fun e => by
    by_cases h : pairMatch e.a e.b x y = true <;> simp [h])]
  rw [List.length_map]
  exact h1 p q

/-! ### Rule-application folds -/

theorem coFold_facts (companies : List Company)
    (stream : List (String × String × String)) (st : BState)
    (h1 : OnePer st.graph) (p q : String) :
    weightOf (stream.foldl (fun s kp => coFounderStep companies kp.1 s kp.2)
        st).graph p q =
      (if stream.any (fun kp => pairMatch kp.2.1 kp.2.2 p q) then 3
        else weightOf st.graph p q) ∧
    (stream.foldl (fun s kp => coFounderStep companies kp.1 s kp.2)
        st).graph.hasEdge p q =
      (st.graph.hasEdge p q ||
        stream.any (fun kp => pairMatch kp.2.1 kp.2.2 p q)) ∧
    OnePer (stream.foldl (fun s kp => coFounderStep companies kp.1 s kp.2)
        st).graph := by
  induction stream generalizing st with
  | nil =>
    refine ⟨?_, ?_, h1⟩ <;> simp
  | cons kp rest ih =>
    have hstep : (coFounderStep companies kp.1 st kp.2).graph =
        st.graph.addEdge kp.2.1 kp.2.2 3 "co_founder" kp.1 := rfl
    have honeStep : OnePer (coFounderStep companies kp.1 st kp.2).graph := by
      rw [hstep]; exact addEdge_onePer h1 _ _ _ _ _
    obtain ⟨hw, he, ho⟩ := ih (coFounderStep companies kp.1 st kp.2) honeStep
    rw [List.foldl_cons]
    refine ⟨?_, ?_, ho⟩
    · rw [hw, List.any_cons]
      rw [hstep, addEdge_weightOf h1]
      by_cases hr : rest.any (fun kp => pairMatch kp.2.1 kp.2.2 p q) = true
      · simp [hr]
      · by_cases hm : pairMatch kp.2.1 kp.2.2 p q = true <;> simp [hr, hm]
    · rw [he, List.any_cons]
      rw [hstep, addEdge_hasEdge]
      by_cases hm : pairMatch kp.2.1 kp.2.2 p q = true <;>
        by_cases hh : st.graph.hasEdge p q = true <;> simp [hm, hh]

theorem accumStep_graph_facts (w : ℚ) (rel : RelationshipType) (rn : String)
    (st : BState) (kp : String × String × String) (h1 : OnePer st.graph)
    (p q : String) :
    weightOf (accumStep w rel rn st kp).graph p q =
      weightOf st.graph p q +
        (if pairMatch kp.2.1 kp.2.2 p q = true then w else 0) ∧
    (accumStep w rel rn st kp).graph.hasEdge p q =
      (st.graph.hasEdge p q || pairMatch kp.2.1 kp.2.2 p q) ∧
    OnePer (accumStep w rel rn st kp).graph := by
  unfold accumStep
  by_cases hE : st.graph.hasEdge kp.2.1 kp.2.2 = true
  · simp only [hE, if_true]
    refine ⟨bumpWeight_weightOf h1 hE w p q, ?_, bumpWeight_onePer h1 _ _ _⟩
    rw [bumpWeight_hasEdge]
    by_cases hm : pairMatch kp.2.1 kp.2.2 p q = true
    · have : st.graph.hasEdge p q = true := hasEdge_trans hE hm
      simp [this, hm]
    · have : pairMatch kp.2.1 kp.2.2 p q = false := by
        rw [← Bool.not_eq_true]; exact hm
      simp [this]
  · simp only [hE, if_false, Bool.false_eq_true]
    refine ⟨?_, addEdge_hasEdge _ _ _ _ _ _ _, addEdge_onePer h1 _ _ _ _ _⟩
    rw [addEdge_weightOf h1]
    by_cases hm : pairMatch kp.2.1 kp.2.2 p q = true
    · rw [if_pos hm, if_pos hm]
      have hpq : st.graph.hasEdge p q = false := by
        rw [← Bool.not_eq_true]
        intro h
        have hsym : pairMatch p q kp.2.1 kp.2.2 = true := by
          rw [pairMatch_symm]; exact hm
        obtain ⟨e, he, hme⟩ := hasEdge_iff_exists.1 h
        exact hE (hasEdge_iff_exists.2 ⟨e, he, pairMatch_trans hme hsym⟩)
      rw [weightOf_eq_zero_of_not_hasEdge hpq, zero_add]
    · rw [if_neg hm, if_neg hm, add_zero]

theorem accumFold_facts (w : ℚ) (rel : RelationshipType) (rn : String)
    (stream : List (String × String × String)) (st : BState)
    (h1 : OnePer st.graph) (p q : String) :
    weightOf ((stream.foldl (accumStep w rel rn) st).graph) p q =
      weightOf st.graph p q +
        w * (stream.countP (fun kp => pairMatch kp.2.1 kp.2.2 p q) : ℚ) ∧
    (stream.foldl (accumStep w rel rn) st).graph.hasEdge p q =
      (st.graph.hasEdge p q ||
        stream.any (fun kp => pairMatch kp.2.1 kp.2.2 p q)) ∧
    OnePer (stream.foldl (accumStep w rel rn) st).graph := by
  induction stream generalizing st with
  | nil =>
    refine ⟨?_, ?_, h1⟩ <;> simp
  | cons kp rest ih =>
    obtain ⟨hsw, hse, hso⟩ := accumStep_graph_facts w rel rn st kp h1 p q
    obtain ⟨hw, he, ho⟩ := ih (accumStep w rel rn st kp) hso
    rw [List.foldl_cons]
    refine ⟨?_, ?_, ho⟩
    · rw [hw, hsw, List.countP_cons]
      by_cases hm : pairMatch kp.2.1 kp.2.2 p q = true
      · simp only [hm, if_true]
        push_cast
        ring
      · have hm' : pairMatch kp.2.1 kp.2.2 p q = false := by
          rw [← Bool.not_eq_true]; exact hm
        simp only [hm', Bool.false_eq_true, if_false]
        push_cast
        ring
    · rw [he, hse, List.any_cons]
      by_cases hm : pairMatch kp.2.1 kp.2.2 p q = true <;>
        by_cases hh : st.graph.hasEdge p q = true <;> simp [hm, hh]

theorem nodesFold_edgeList (g : Graph) (fs : List Founder) :
    (fs.foldl (fun g f => g.addNode f.id) g).edgeList = g.edgeList := by
  induction fs generalizing g with
  | nil => rfl
  | cons f rest ih =>
    rw [List.foldl_cons, ih, addNode_edgeList]

theorem onePer_of_nil_edges {g : Graph} (h : g.edgeList = []) : OnePer g := by
  intro p q
  simp [edgeCountOf, h]

/-! ### Built-graph characterisation over the rule streams -/

theorem built_facts (F : List Founder) (C : List Company) (p q : String) :
    weightOf (builtGraph F C) p q =
      (if (coPairStream (toDictF F)).any
          (fun kp => pairMatch kp.2.1 kp.2.2 p q) then (3 : ℚ) else 0) +
        ((instPairStream (toDictF F)).countP
          (fun kp => pairMatch kp.2.1 kp.2.2 p q) : ℚ) +
        (3 / 2) * ((empPairStream (toDictF F)).countP
          (fun kp => pairMatch kp.2.1 kp.2.2 p q) : ℚ) ∧
    (builtGraph F C).hasEdge p q =
      ((coPairStream (toDictF F)).any (fun kp => pairMatch kp.2.1 kp.2.2 p q) ||
        (instPairStream (toDictF F)).any (fun kp => pairMatch kp.2.1 kp.2.2 p q) ||
        (empPairStream (toDictF F)).any (fun kp => pairMatch kp.2.1 kp.2.2 p q)) ∧
    OnePer (builtGraph F C) := by
  have hbuild : builtGraph F C =
      ((empPairStream (toDictF F)).foldl
        (accumStep (3 / 2) RelationshipType.same_employer "same_employer")
        ((instPairStream (toDictF F)).foldl
          (accumStep 1 RelationshipType.same_college "same_college")
          ((coPairStream (toDictF F)).foldl
            (fun s kp => coFounderStep C kp.1 s kp.2)
            { graph := (toDictF F).foldl (fun g f => g.addNode f.id)
                initState.graph
              edges := initState.edges }))).graph := rfl
  have hst0nil : ((toDictF F).foldl (fun g f => g.addNode f.id)
      initState.graph).edgeList = [] := by
    rw [nodesFold_edgeList]; rfl
  have hone0 : OnePer ((toDictF F).foldl (fun g f => g.addNode f.id)
      initState.graph) := onePer_of_nil_edges hst0nil
  have hw0 : weightOf ((toDictF F).foldl (fun g f => g.addNode f.id)
      initState.graph) p q = 0 := by
    simp [weightOf, hst0nil]
  have he0 : ((toDictF F).foldl (fun g f => g.addNode f.id)
      initState.graph).hasEdge p q = false := by
    simp [Graph.hasEdge, hst0nil]
  obtain ⟨hcw, hce, hco⟩ := coFold_facts C (coPairStream (toDictF F))
    { graph := (toDictF F).foldl (fun g f => g.addNode f.id) initState.graph
      edges := initState.edges } hone0 p q
  obtain ⟨hiw, hie, hio⟩ := accumFold_facts 1 RelationshipType.same_college
    "same_college" (instPairStream (toDictF F)) _ hco p q
  obtain ⟨hew, hee, heo⟩ := accumFold_facts (3 / 2)
    RelationshipType.same_employer "same_employer"
    (empPairStream (toDictF F)) _ hio p q
  rw [hbuild]
  refine ⟨?_, ?_, heo⟩
  · rw [hew, hiw, hcw, hw0]
    by_cases hc : (coPairStream (toDictF F)).any
        (fun kp => pairMatch kp.2.1 kp.2.2 p q) = true <;>
      simp [hc]
  · rw [hee, hie, hce, he0]
    simp [Bool.or_assoc]

/-! ### Founder-dictionary lemmas -/

theorem toDictFAux_ids_nodup (l : List Founder) (acc : List Founder)
    (hacc : (acc.map Founder.id).Nodup) :
    ((toDictFAux acc l).map Founder.id).Nodup := by
  induction l generalizing acc with
  | nil => exact hacc
  | cons f rest ih =>
    by_cases hmem : (acc.map Founder.id).contains f.id = true
    · rw [toDictFAux, if_pos hmem]
      refine ih _ ?_
      have hsame : (acc.map (fun g => if g.id = f.id then f else g)).map
          Founder.id = acc.map Founder.id := by
        rw [List.map_map]
        refine List.map_congr_left (fun g _ => ?_)
        show (if g.id = f.id then f else g).id = g.id
        split
        · next h => rw [h]
        · rfl
      rw [hsame]
      exact hacc
    · rw [toDictFAux, if_neg hmem]
      refine ih _ ?_
      rw [List.map_append]
      rw [List.nodup_append]
      refine ⟨hacc, List.nodup_singleton _, ?_⟩
      intro a ha hb
      simp only [List.map_singleton, List.mem_singleton] at hb
      subst hb
      have hni : f.id ∉ acc.map Founder.id := by simpa using hmem
      exact hni ha

theorem toDictF_ids_nodup (l : List Founder) :
    ((toDictF l).map Founder.id).Nodup :=
  toDictFAux_ids_nodup l [] (by simp)

theorem founderById_some {F : List Founder} {x : String} {f : Founder}
    (h : founderById F x = some f) : f ∈ toDictF F ∧ f.id = x := by
  unfold founderById at h
  refine ⟨List.mem_of_find?_eq_some h, ?_⟩
  have := List.find?_some h
  simpa using this

theorem find?_id_of_mem {l : List Founder} {f : Founder}
    (hnd : (l.map Founder.id).Nodup) (hf : f ∈ l) :
    l.find? (fun g => g.id = f.id) = some f := by
  induction l with
  | nil => cases hf
  | cons g rest ih =>
    rcases List.mem_cons.1 hf with rfl | hf'
    · simp [List.find?]
    · have hgid : g.id ∉ rest.map Founder.id := (List.nodup_cons.1 hnd).1
      have hne : ¬ g.id = f.id := by
        intro h
        exact hgid (h ▸ List.mem_map.2 ⟨f, hf', rfl⟩)
      rw [List.find?]
      have hb : (g.id = f.id : Bool) = false := by
        simp [hne]
      rw [hb]
      exact ih (List.nodup_cons.1 hnd).2 hf'

theorem founderById_of_mem {F : List Founder} {f : Founder}
    (hf : f ∈ toDictF F) : founderById F f.id = some f :=
  find?_id_of_mem (toDictF_ids_nodup F) hf

theorem exists_dict_iff_founderById {F : List Founder} {x : String}
    (P : Founder → Prop) :
    (∃ f ∈ toDictF F, f.id = x ∧ P f) ↔
      (∃ f, founderById F x = some f ∧ P f) := by
  constructor
  · rintro ⟨f, hf, rfl, hP⟩
    exact ⟨f, founderById_of_mem hf, hP⟩
  · rintro ⟨f, hb, hP⟩
    obtain ⟨hf, hid⟩ := founderById_some hb
    exact ⟨f, hf, hid, hP⟩

/-! ### Stream membership -/

theorem mem_companyStream {fs : List Founder} {k x : String} :
    (k, x) ∈ companyStream fs ↔
      ∃ f ∈ fs, f.id = x ∧ k ∈ f.companies := by
  unfold companyStream
  rw [List.mem_flatMap]
  constructor
  · rintro ⟨f, hf, hmem⟩
    obtain ⟨cid, hcid, heq⟩ := List.mem_map.1 hmem
    obtain ⟨h1, h2⟩ := Prod.mk.injEq .. ▸ heq
    exact ⟨f, hf, h2, h1 ▸ hcid⟩
  · rintro ⟨f, hf, rfl, hk⟩
    exact ⟨f, hf, List.mem_map.2 ⟨k, hk, rfl⟩⟩

theorem mem_instStream {fs : List Founder} {k x : String} :
    (k, x) ∈ instStream fs ↔
      (∃ f ∈ fs, f.id = x ∧ ∃ ed ∈ f.education, pyStrip ed.institution = k) ∧
        k ≠ "" := by
  unfold instStream
  rw [List.mem_flatMap]
  constructor
  · rintro ⟨f, hf, hmem⟩
    obtain ⟨ed, hed, heq⟩ := List.mem_filterMap.1 hmem
    by_cases hk : pyStrip ed.institution = ""
    · simp [hk] at heq
    · rw [if_neg hk] at heq
      obtain ⟨h1, h2⟩ := Prod.mk.injEq .. ▸ Option.some.injEq .. ▸ heq
      exact ⟨⟨f, hf, h2, ed, hed, h1⟩, h1 ▸ hk⟩
  · rintro ⟨⟨f, hf, rfl, ed, hed, hk⟩, hne⟩
    refine ⟨f, hf, List.mem_filterMap.2 ⟨ed, hed, ?_⟩⟩
    rw [hk, if_neg hne]

theorem mem_empStream {fs : List Founder} {k x : String} :
    (k, x) ∈ empStream fs ↔
      (∃ f ∈ fs, f.id = x ∧ ∃ w ∈ f.work_history, pyStrip w.company = k) ∧
        k ≠ "" ∧ k ≠ "—" := by
  unfold empStream
  rw [List.mem_flatMap]
  constructor
  · rintro ⟨f, hf, hmem⟩
    obtain ⟨w, hw, heq⟩ := List.mem_filterMap.1 hmem
    by_cases hk : pyStrip w.company = "" ∨ pyStrip w.company = "—"
    · simp [hk] at heq
    · rw [not_or] at hk
      rw [if_neg (by tauto)] at heq
      obtain ⟨h1, h2⟩ := Prod.mk.injEq .. ▸ Option.some.injEq .. ▸ heq
      refine ⟨⟨f, hf, h2, w, hw, h1⟩, ?_, ?_⟩
      · rw [← h1]; exact hk.1
      · rw [← h1]; exact hk.2
  · rintro ⟨⟨f, hf, rfl, w, hw, hk⟩, hne, hnd⟩
    refine ⟨f, hf, List.mem_filterMap.2 ⟨w, hw, ?_⟩⟩
    rw [hk]
    rw [if_neg (by simp [hne, hnd])]

theorem instStream_key_ne_empty {fs : List Founder} {kv : String × String}
    (h : kv ∈ instStream fs) : kv.1 ≠ "" := by
  obtain ⟨k, v⟩ := kv
  exact (mem_instStream.1 h).2

theorem empStream_key_ne_empty {fs : List Founder} {kv : String × String}
    (h : kv ∈ empStream fs) : kv.1 ≠ "" ∧ kv.1 ≠ "—" := by
  obtain ⟨k, v⟩ := kv
  exact (mem_empStream.1 h).2

/-! ### Counting over flattened group streams -/

theorem countP_flatMap {α β : Type} (l : List α) (f : α → List β)
    (p : β → Bool) :
    (l.flatMap f).countP p = (l.map (fun a => (f a).countP p)).sum := by
  induction l with
  | nil => rfl
  | cons a rest ih =>
    rw [List.flatMap_cons, List.countP_append, List.map_cons, List.sum_cons, ih]

theorem any_flatMap {α β : Type} (l : List α) (f : α → List β)
    (p : β → Bool) :
    (l.flatMap f).any p = l.any (fun a => (f a).any p) := by
  induction l with
  | nil => rfl
  | cons a rest ih =>
    rw [List.flatMap_cons, List.any_append, List.any_cons, ih]

theorem sum_map_ite_eq_countP {α : Type} (l : List α) (P : α → Prop)
    [DecidablePred P] :
    (l.map (fun a => if P a then (1 : ℕ) else 0)).sum =
      l.countP (fun a => decide (P a)) := by
  induction l with
  | nil => rfl
  | cons a rest ih =>
    rw [List.map_cons, List.sum_cons, List.countP_cons, ih]
    by_cases h : P a <;> simp [h, Nat.add_comm]

/-- Membership of a stream key in a stream value-group, phrased through the
grouping.  For any group of `groupPairs stream`, its member list is the
filtered stream. -/
theorem mem_group_members {stream : List (String × String)}
    {g : String × List String} (hg : g ∈ groupPairs stream) {v : String} :
    v ∈ g.2 ↔ (g.1, v) ∈ stream := by
  rw [mem_groupPairs_lookup hg]
  constructor
  · intro hv
    obtain ⟨kv, hkv, rfl⟩ := List.mem_map.1 hv
    have := List.mem_filter.1 hkv
    have hk : kv.1 = g.1 := by simpa using this.2
    have : (kv.1, kv.2) ∈ stream := by simpa using this.1
    rwa [hk] at this
  · intro hv
    exact List.mem_map.2 ⟨(g.1, v), List.mem_filter.2 ⟨hv, by simp⟩, rfl⟩

/-- An `any` over the pairs of all groups of a stream holds exactly when
some key relates both endpoints. -/
theorem groupedPairs_any_iff {x y : String} (hxy : x ≠ y)
    (stream : List (String × String)) :
    ((groupPairs stream).flatMap (fun g =>
        (pairsOf g.2).map (fun p => (g.1, p)))).any
        (fun kp => pairMatch kp.2.1 kp.2.2 x y) = true ↔
      ∃ k, (k, x) ∈ stream ∧ (k, y) ∈ stream := by
  rw [any_flatMap]
  rw [List.any_eq_true]
  constructor
  · rintro ⟨g, hg, hany⟩
    obtain ⟨kp, hkp, hm⟩ := List.any_eq_true.1 hany
    obtain ⟨p, hp, rfl⟩ := List.mem_map.1 hkp
    obtain ⟨hx, hy⟩ := (pairsOf_any_iff hxy g.2).1
      (List.any_eq_true.2 ⟨p, hp, hm⟩)
    exact ⟨g.1, (mem_group_members hg).1 hx, (mem_group_members hg).1 hy⟩
  · rintro ⟨k, hkx, hky⟩
    have hkey : k ∈ (groupPairs stream).map Prod.fst := by
      rw [groupPairs_keys, mem_dedupFirst]
      exact List.mem_map.2 ⟨(k, x), hkx, rfl⟩
    obtain ⟨g, hg, rfl⟩ := List.mem_map.1 hkey
    refine ⟨g, hg, ?_⟩
    obtain ⟨p, hp, hm⟩ := List.any_eq_true.1 ((pairsOf_any_iff hxy g.2).2
      ⟨(mem_group_members hg).2 hkx, (mem_group_members hg).2 hky⟩)
    exact List.any_eq_true.2 ⟨(g.1, p), List.mem_map.2 ⟨p, hp, rfl⟩, hm⟩

/-- A `countP` over the deduplicated pairs of all groups of a stream counts
the distinct keys relating both endpoints. -/
theorem groupedPairs_countP {x y : String} (hxy : x ≠ y)
    (stream : List (String × String)) :
    ((groupPairs stream).flatMap (fun g =>
        (pairsOf (dedupFirst g.2)).map (fun p => (g.1, p)))).countP
        (fun kp => pairMatch kp.2.1 kp.2.2 x y) =
      (dedupFirst (stream.map Prod.fst)).countP
        (fun k => decide ((k, x) ∈ stream ∧ (k, y) ∈ stream)) := by
  rw [countP_flatMap]
  have hinner : ∀ g ∈ groupPairs stream,
      ((pairsOf (dedupFirst g.2)).map (fun p => (g.1, p))).countP
        (fun kp => pairMatch kp.2.1 kp.2.2 x y) =
        if (g.1, x) ∈ stream ∧ (g.1, y) ∈ stream then 1 else 0 := by
    intro g hg
    rw [List.countP_map]
    rw [show ((fun kp : String × String × String =>
        pairMatch kp.2.1 kp.2.2 x y) ∘ fun p : String × String => (g.1, p)) =
        (fun p : String × String => pairMatch p.1 p.2 x y) from rfl]
    rw [pairsOf_countP hxy (nodup_dedupFirst g.2)]
    simp only [mem_dedupFirst, mem_group_members hg]
  rw [List.map_congr_left hinner]
  rw [sum_map_ite_eq_countP (groupPairs stream)
    (fun g => (g.1, x) ∈ stream ∧ (g.1, y) ∈ stream)]
  rw [← groupPairs_keys]
  rw [List.countP_map]
  rfl

/-! ### Spec-vocabulary bridges -/

theorem listsInst_iff {F : List Founder} {x k : String} :
    listsInst F x k = true ↔
      ∃ f ∈ toDictF F, f.id = x ∧ ∃ ed ∈ f.education,
        pyStrip ed.institution = k := by
  rw [exists_dict_iff_founderById
    (fun f => ∃ ed ∈ f.education, pyStrip ed.institution = k)]
  unfold listsInst
  cases hfb : founderById F x with
  | none => simp
  | some f =>
    simp [List.any_eq_true, beq_iff_eq]

theorem listsEmp_iff {F : List Founder} {x k : String} :
    listsEmp F x k = true ↔
      ∃ f ∈ toDictF F, f.id = x ∧ ∃ w ∈ f.work_history,
        pyStrip w.company = k := by
  rw [exists_dict_iff_founderById
    (fun f => ∃ w ∈ f.work_history, pyStrip w.company = k)]
  unfold listsEmp
  cases hfb : founderById F x with
  | none => simp
  | some f =>
    simp [List.any_eq_true, beq_iff_eq]

theorem sharedCompanies_ne_iff (F : List Founder) (x y : String) :
    sharedCompanies F x y ≠ [] ↔
      ∃ k, (k, x) ∈ companyStream (toDictF F) ∧
        (k, y) ∈ companyStream (toDictF F) := by
  unfold sharedCompanies
  cases hx : founderById F x with
  | none =>
    simp only [ne_eq, not_true_eq_false, false_iff, not_exists, not_and]
    intro k hkx _
    obtain ⟨f, hf, hid, _⟩ := mem_companyStream.1 hkx
    rw [← hid] at hx
    rw [founderById_of_mem hf] at hx
    cases hx
  | some fx =>
    cases hy : founderById F y with
    | none =>
      simp only [ne_eq, not_true_eq_false, false_iff, not_exists, not_and]
      intro k _ hky
      obtain ⟨f, hf, hid, _⟩ := mem_companyStream.1 hky
      rw [← hid] at hy
      rw [founderById_of_mem hf] at hy
      cases hy
    | some fy =>
      obtain ⟨hfx, hfxid⟩ := founderById_some hx
      obtain ⟨hfy, hfyid⟩ := founderById_some hy
      show (dedupFirst fx.companies).filter
          (fun cid => fy.companies.contains cid) ≠ [] ↔ _
      constructor
      · intro hne
        have hex : ∃ k, k ∈ (dedupFirst fx.companies).filter
            (fun cid => fy.companies.contains cid) := by
          by_contra hno
          push_neg at hno
          exact hne (List.eq_nil_iff_forall_not_mem.2 hno)
        obtain ⟨k, hk⟩ := hex
        have hk' := List.mem_filter.1 hk
        have hk1 : k ∈ fx.companies := (mem_dedupFirst _ _).1 hk'.1
        have hk2 : k ∈ fy.companies := List.elem_iff.1 hk'.2
        exact ⟨k, mem_companyStream.2 ⟨fx, hfx, hfxid, hk1⟩,
          mem_companyStream.2 ⟨fy, hfy, hfyid, hk2⟩⟩
      · rintro ⟨k, hkx, hky⟩
        obtain ⟨f₁, hf₁, hid₁, hk₁⟩ := mem_companyStream.1 hkx
        obtain ⟨f₂, hf₂, hid₂, hk₂⟩ := mem_companyStream.1 hky
        have h₁ := founderById_of_mem hf₁
        rw [hid₁, hx] at h₁
        have e₁ : fx = f₁ := Option.some.inj h₁
        have h₂ := founderById_of_mem hf₂
        rw [hid₂, hy] at h₂
        have e₂ : fy = f₂ := Option.some.inj h₂
        subst e₁
        subst e₂
        intro hnil
        have hmem : k ∈ (dedupFirst fx.companies).filter
            (fun cid => fy.companies.contains cid) :=
          List.mem_filter.2 ⟨(mem_dedupFirst _ _).2 hk₁, List.elem_iff.2 hk₂⟩
        rw [hnil] at hmem
        cases hmem

theorem sharedInstitutions_length (F : List Founder) {x y : String}
    (hxy : x ≠ y) :
    (instPairStream (toDictF F)).countP
        (fun kp => pairMatch kp.2.1 kp.2.2 x y) =
      (sharedInstitutions F x y).length := by
  unfold instPairStream
  rw [groupedPairs_countP hxy]
  unfold sharedInstitutions allInstNames
  rw [← List.countP_eq_length_filter]
  refine List.countP_congr (fun k hk => ?_)
  have hkne : k ≠ "" := by
    obtain ⟨kv, hkv, rfl⟩ := List.mem_map.1
      ((mem_dedupFirst _ _).1 hk)
    exact instStream_key_ne_empty hkv
  rw [decide_eq_true_eq, Bool.and_eq_true]
  constructor
  · rintro ⟨h1, h2⟩
    obtain ⟨⟨f, hf, hid, hrec⟩, _⟩ := mem_instStream.1 h1
    obtain ⟨⟨g, hg, hgid, hgrec⟩, _⟩ := mem_instStream.1 h2
    exact ⟨listsInst_iff.2 ⟨f, hf, hid, hrec⟩,
      listsInst_iff.2 ⟨g, hg, hgid, hgrec⟩⟩
  · rintro ⟨h1, h2⟩
    exact ⟨mem_instStream.2 ⟨listsInst_iff.1 h1, hkne⟩,
      mem_instStream.2 ⟨listsInst_iff.1 h2, hkne⟩⟩

theorem sharedEmployers_length (F : List Founder) {x y : String}
    (hxy : x ≠ y) :
    (empPairStream (toDictF F)).countP
        (fun kp => pairMatch kp.2.1 kp.2.2 x y) =
      (sharedEmployers F x y).length := by
  unfold empPairStream
  rw [groupedPairs_countP hxy]
  unfold sharedEmployers allEmpNames
  rw [← List.countP_eq_length_filter]
  refine List.countP_congr (fun k hk => ?_)
  have hkne : k ≠ "" ∧ k ≠ "—" := by
    obtain ⟨kv, hkv, rfl⟩ := List.mem_map.1
      ((mem_dedupFirst _ _).1 hk)
    exact empStream_key_ne_empty hkv
  rw [decide_eq_true_eq, Bool.and_eq_true]
  constructor
  · rintro ⟨h1, h2⟩
    obtain ⟨⟨f, hf, hid, hrec⟩, _⟩ := mem_empStream.1 h1
    obtain ⟨⟨g, hg, hgid, hgrec⟩, _⟩ := mem_empStream.1 h2
    exact ⟨listsEmp_iff.2 ⟨f, hf, hid, hrec⟩,
      listsEmp_iff.2 ⟨g, hg, hgid, hgrec⟩⟩
  · rintro ⟨h1, h2⟩
    exact ⟨mem_empStream.2 ⟨listsEmp_iff.1 h1, hkne.1, hkne.2⟩,
      mem_empStream.2 ⟨listsEmp_iff.1 h2, hkne.1, hkne.2⟩⟩

theorem sharedInstitutions_ne_iff (F : List Founder) (x y : String) :
    sharedInstitutions F x y ≠ [] ↔
      ∃ k, (k, x) ∈ instStream (toDictF F) ∧
        (k, y) ∈ instStream (toDictF F) := by
  unfold sharedInstitutions allInstNames
  constructor
  · intro hne
    have hex : ∃ k, k ∈ (dedupFirst ((instStream (toDictF F)).map
        Prod.fst)).filter (fun k => listsInst F x k && listsInst F y k) := by
      by_contra hno
      push_neg at hno
      exact hne (List.eq_nil_iff_forall_not_mem.2 hno)
    obtain ⟨k, hk⟩ := hex
    obtain ⟨hkm, hkp⟩ := List.mem_filter.1 hk
    have hkne : k ≠ "" := by
      obtain ⟨kv, hkv, rfl⟩ := List.mem_map.1 ((mem_dedupFirst _ _).1 hkm)
      exact instStream_key_ne_empty hkv
    rw [Bool.and_eq_true] at hkp
    obtain ⟨h1, h2⟩ := hkp
    exact ⟨k, mem_instStream.2 ⟨listsInst_iff.1 h1, hkne⟩,
      mem_instStream.2 ⟨listsInst_iff.1 h2, hkne⟩⟩
  · rintro ⟨k, hkx, hky⟩
    intro hnil
    obtain ⟨⟨f, hf, hid, hrec⟩, hkne⟩ := mem_instStream.1 hkx
    obtain ⟨⟨g, hg, hgid, hgrec⟩, _⟩ := mem_instStream.1 hky
    have hmem : k ∈ (dedupFirst ((instStream (toDictF F)).map Prod.fst)).filter
        (fun k => listsInst F x k && listsInst F y k) := by
      refine List.mem_filter.2 ⟨(mem_dedupFirst _ _).2
        (List.mem_map.2 ⟨(k, x), hkx, rfl⟩), ?_⟩
      rw [Bool.and_eq_true]
      exact ⟨listsInst_iff.2 ⟨f, hf, hid, hrec⟩,
        listsInst_iff.2 ⟨g, hg, hgid, hgrec⟩⟩
    rw [hnil] at hmem
    cases hmem

theorem sharedEmployers_ne_iff (F : List Founder) (x y : String) :
    sharedEmployers F x y ≠ [] ↔
      ∃ k, (k, x) ∈ empStream (toDictF F) ∧
        (k, y) ∈ empStream (toDictF F) := by
  unfold sharedEmployers allEmpNames
  constructor
  · intro hne
    have hex : ∃ k, k ∈ (dedupFirst ((empStream (toDictF F)).map
        Prod.fst)).filter (fun k => listsEmp F x k && listsEmp F y k) := by
      by_contra hno
      push_neg at hno
      exact hne (List.eq_nil_iff_forall_not_mem.2 hno)
    obtain ⟨k, hk⟩ := hex
    obtain ⟨hkm, hkp⟩ := List.mem_filter.1 hk
    have hkne : k ≠ "" ∧ k ≠ "—" := by
      obtain ⟨kv, hkv, rfl⟩ := List.mem_map.1 ((mem_dedupFirst _ _).1 hkm)
      exact empStream_key_ne_empty hkv
    rw [Bool.and_eq_true] at hkp
    obtain ⟨h1, h2⟩ := hkp
    exact ⟨k, mem_empStream.2 ⟨listsEmp_iff.1 h1, hkne.1, hkne.2⟩,
      mem_empStream.2 ⟨listsEmp_iff.1 h2, hkne.1, hkne.2⟩⟩
  · rintro ⟨k, hkx, hky⟩
    intro hnil
    obtain ⟨⟨f, hf, hid, hrec⟩, hkne₁, hkne₂⟩ := mem_empStream.1 hkx
    obtain ⟨⟨g, hg, hgid, hgrec⟩, _, _⟩ := mem_empStream.1 hky
    have hmem : k ∈ (dedupFirst ((empStream (toDictF F)).map Prod.fst)).filter
        (fun k => listsEmp F x k && listsEmp F y k) := by
      refine List.mem_filter.2 ⟨(mem_dedupFirst _ _).2
        (List.mem_map.2 ⟨(k, x), hkx, rfl⟩), ?_⟩
      rw [Bool.and_eq_true]
      exact ⟨listsEmp_iff.2 ⟨f, hf, hid, hrec⟩,
        listsEmp_iff.2 ⟨g, hg, hgid, hgrec⟩⟩
    rw [hnil] at hmem
    cases hmem

/-! ### Master characterisation of the built graph -/

theorem built_weight_char (F : List Founder) (C : List Company)
    {x y : String} (hxy : x ≠ y) :
    weightOf (builtGraph F C) x y =
      (if sharedCompanies F x y ≠ [] then 3 else 0) +
        ((sharedInstitutions F x y).length : ℚ) +
        (3 / 2) * ((sharedEmployers F x y).length : ℚ) := by
  obtain ⟨hw, _, _⟩ := built_facts F C x y
  rw [hw]
  have hco : ((coPairStream (toDictF F)).any
      (fun kp => pairMatch kp.2.1 kp.2.2 x y) = true) ↔
      sharedCompanies F x y ≠ [] := by
    unfold coPairStream
    rw [groupedPairs_any_iff hxy]
    exact (sharedCompanies_ne_iff F x y).symm
  rw [sharedInstitutions_length F hxy, sharedEmployers_length F hxy]
  by_cases hc : sharedCompanies F x y ≠ []
  · rw [if_pos (hco.2 hc), if_pos hc]
  · rw [if_neg (fun h => hc (hco.1 h)), if_neg hc]

theorem built_hasEdge_char (F : List Founder) (C : List Company)
    {x y : String} (hxy : x ≠ y) :
    (builtGraph F C).hasEdge x y = true ↔
      (sharedCompanies F x y ≠ [] ∨ sharedInstitutions F x y ≠ [] ∨
        sharedEmployers F x y ≠ []) := by
  obtain ⟨_, he, _⟩ := built_facts F C x y
  rw [he]
  simp only [Bool.or_eq_true]
  have hco : ((coPairStream (toDictF F)).any
      (fun kp => pairMatch kp.2.1 kp.2.2 x y) = true) ↔
      sharedCompanies F x y ≠ [] := by
    unfold coPairStream
    rw [groupedPairs_any_iff hxy]
    exact (sharedCompanies_ne_iff F x y).symm
  have hin : ((instPairStream (toDictF F)).any
      (fun kp => pairMatch kp.2.1 kp.2.2 x y) = true) ↔
      sharedInstitutions F x y ≠ [] := by
    unfold instPairStream
    rw [any_flatMap]
    have : ((groupPairs (instStream (toDictF F))).any (fun g =>
        ((pairsOf (dedupFirst g.2)).map (fun p => (g.1, p))).any
          (fun kp => pairMatch kp.2.1 kp.2.2 x y)) = true) ↔
        ∃ k, (k, x) ∈ instStream (toDictF F) ∧
          (k, y) ∈ instStream (toDictF F) := by
      rw [List.any_eq_true]
      constructor
      · rintro ⟨g, hg, hany⟩
        obtain ⟨kp, hkp, hm⟩ := List.any_eq_true.1 hany
        obtain ⟨p, hp, rfl⟩ := List.mem_map.1 hkp
        obtain ⟨hx, hy⟩ := (pairsOf_any_iff hxy (dedupFirst g.2)).1
          (List.any_eq_true.2 ⟨p, hp, hm⟩)
        exact ⟨g.1,
          (mem_group_members hg).1 ((mem_dedupFirst _ _).1 hx),
          (mem_group_members hg).1 ((mem_dedupFirst _ _).1 hy)⟩
      · rintro ⟨k, hkx, hky⟩
        have hkey : k ∈ (groupPairs (instStream (toDictF F))).map Prod.fst := by
          rw [groupPairs_keys, mem_dedupFirst]
          exact List.mem_map.2 ⟨(k, x), hkx, rfl⟩
        obtain ⟨g, hg, rfl⟩ := List.mem_map.1 hkey
        refine ⟨g, hg, ?_⟩
        obtain ⟨p, hp, hm⟩ := List.any_eq_true.1
          ((pairsOf_any_iff hxy (dedupFirst g.2)).2
            ⟨(mem_dedupFirst _ _).2 ((mem_group_members hg).2 hkx),
              (mem_dedupFirst _ _).2 ((mem_group_members hg).2 hky)⟩)
        exact List.any_eq_true.2 ⟨(g.1, p), List.mem_map.2 ⟨p, hp, rfl⟩, hm⟩
    rw [this]
    exact (sharedInstitutions_ne_iff F x y).symm
  have hem : ((empPairStream (toDictF F)).any
      (fun kp => pairMatch kp.2.1 kp.2.2 x y) = true) ↔
      sharedEmployers F x y ≠ [] := by
    unfold empPairStream
    rw [any_flatMap]
    have : ((groupPairs (empStream (toDictF F))).any (fun g =>
        ((pairsOf (dedupFirst g.2)).map (fun p => (g.1, p))).any
          (fun kp => pairMatch kp.2.1 kp.2.2 x y)) = true) ↔
        ∃ k, (k, x) ∈ empStream (toDictF F) ∧
          (k, y) ∈ empStream (toDictF F) := by
      rw [List.any_eq_true]
      constructor
      · rintro ⟨g, hg, hany⟩
        obtain ⟨kp, hkp, hm⟩ := List.any_eq_true.1 hany
        obtain ⟨p, hp, rfl⟩ := List.mem_map.1 hkp
        obtain ⟨hx, hy⟩ := (pairsOf_any_iff hxy (dedupFirst g.2)).1
          (List.any_eq_true.2 ⟨p, hp, hm⟩)
        exact ⟨g.1,
          (mem_group_members hg).1 ((mem_dedupFirst _ _).1 hx),
          (mem_group_members hg).1 ((mem_dedupFirst _ _).1 hy)⟩
      · rintro ⟨k, hkx, hky⟩
        have hkey : k ∈ (groupPairs (empStream (toDictF F))).map Prod.fst := by
          rw [groupPairs_keys, mem_dedupFirst]
          exact List.mem_map.2 ⟨(k, x), hkx, rfl⟩
        obtain ⟨g, hg, rfl⟩ := List.mem_map.1 hkey
        refine ⟨g, hg, ?_⟩
        obtain ⟨p, hp, hm⟩ := List.any_eq_true.1
          ((pairsOf_any_iff hxy (dedupFirst g.2)).2
            ⟨(mem_dedupFirst _ _).2 ((mem_group_members hg).2 hkx),
              (mem_dedupFirst _ _).2 ((mem_group_members hg).2 hky)⟩)
        exact List.any_eq_true.2 ⟨(g.1, p), List.mem_map.2 ⟨p, hp, rfl⟩, hm⟩
    rw [this]
    exact (sharedEmployers_ne_iff F x y).symm
  rw [hco, hin, hem]
  exact or_assoc

theorem edgeCount_eq_zero {g : Graph} {x y : String}
    (h : g.hasEdge x y = false) : edgeCountOf g x y = 0 := by
  have : g.edgeList.filter (fun e => pairMatch e.a e.b x y) = [] := by
    rw [List.filter_eq_nil_iff]
    intro e he hm
    exact absurd (hasEdge_iff_exists.2 ⟨e, he, hm⟩) (by simp [h])
  simp [edgeCountOf, this]

theorem built_edgeCount_char (F : List Founder) (C : List Company)
    {x y : String} (hxy : x ≠ y) :
    edgeCountOf (builtGraph F C) x y =
      if sharedCompanies F x y ≠ [] ∨ sharedInstitutions F x y ≠ [] ∨
          sharedEmployers F x y ≠ [] then 1 else 0 := by
  obtain ⟨_, _, hone⟩ := built_facts F C x y
  by_cases hc : sharedCompanies F x y ≠ [] ∨ sharedInstitutions F x y ≠ [] ∨
      sharedEmployers F x y ≠ []
  · rw [if_pos hc]
    exact edgeCount_eq_one hone ((built_hasEdge_char F C hxy).2 hc)
  · rw [if_neg hc]
    refine edgeCount_eq_zero ?_
    rw [← Bool.not_eq_true]
    intro h
    exact hc ((built_hasEdge_char F C hxy).1 h)

/-! ## Claim theorems -/

/-- Claim C2, counterexample: two distinct founders sharing the two
distinct company identifiers `x` and `y` end up with co-founder weight 3.0
on their edge, not the claimed 6.0 — each `add_edge` call of the
co-founder rule overwrites the pair's weight attribute instead of summing
it. -/
theorem C2_counterexample :
    sharedCompanies [c2A, c2B] "a" "b" = ["x", "y"] ∧
      weightOf (builtGraph [c2A, c2B] []) "a" "b" = 3 ∧
      ¬ weightOf (builtGraph [c2A, c2B] []) "a" "b" = 6 := by
  decide

/-- Claim C2, amended: every co-founder contribution writes weight 3.0
onto the single edge of the pair, overwriting rather than summing, so for
distinct founders sharing at least one company identifier (and no
institution or employer) the edge weight is 3.0 however many distinct
companies they share, and exactly one edge exists. -/
theorem C2_cofounder_weight_overwrites (F : List Founder) (C : List Company)
    {x y : String} (hxy : x ≠ y) (hco : sharedCompanies F x y ≠ [])
    (hinst : sharedInstitutions F x y = [])
    (hemp : sharedEmployers F x y = []) :
    edgeCountOf (builtGraph F C) x y = 1 ∧
      weightOf (builtGraph F C) x y = 3 := by
  constructor
  · rw [built_edgeCount_char F C hxy, if_pos (Or.inl hco)]
  · rw [built_weight_char F C hxy, if_pos hco, hinst, hemp]
    norm_num

/-- Claim C2, witness: the amended statement applied to the two founders
of the counterexample, who share the two companies `x` and `y`. -/
theorem C2_witness :
    (("a" : String) ≠ "b" ∧ sharedCompanies [c2A, c2B] "a" "b" ≠ [] ∧
        sharedInstitutions [c2A, c2B] "a" "b" = [] ∧
        sharedEmployers [c2A, c2B] "a" "b" = []) ∧
      (edgeCountOf (builtGraph [c2A, c2B] []) "a" "b" = 1 ∧
        weightOf (builtGraph [c2A, c2B] []) "a" "b" = 3) :=
  ⟨⟨by decide, by decide, by decide, by decide⟩,
    C2_cofounder_weight_overwrites [c2A, c2B] [] (by decide) (by decide)
      (by decide) (by decide)⟩

/-- Claim C3, code evaluated at the failing input: a founder whose company
list names the same identifier twice is paired with themself by the
co-founder rule, so the built graph contains a self-loop edge of weight
3.0 — the rule, unlike the institution and employer rules, never
deduplicates its groups. -/
theorem C3_self_loop_on_duplicate_company :
    edgeCountOf (builtGraph [c3Dup] []) "f1" "f1" = 1 ∧
      weightOf (builtGraph [c3Dup] []) "f1" "f1" = 3 ∧
      (builtGraph [c3Dup] []).edgeList.any (fun e => e.a = e.b) = true := by
  decide

/-- Claim C8, confirmed: two distinct founders sharing exactly one company
identifier and exactly one trimmed non-empty institution name, and no
employer, are joined by exactly one edge of weight 4.0 (3.0 co-founder
plus 1.0 same-institution). -/
theorem C8_company_plus_institution_weight (F : List Founder)
    (C : List Company) {x y : String} (hxy : x ≠ y)
    (hco : (sharedCompanies F x y).length = 1)
    (hinst : (sharedInstitutions F x y).length = 1)
    (hemp : sharedEmployers F x y = []) :
    edgeCountOf (builtGraph F C) x y = 1 ∧
      weightOf (builtGraph F C) x y = 4 := by
  have hcone : sharedCompanies F x y ≠ [] := by
    intro h
    rw [h] at hco
    cases hco
  constructor
  · rw [built_edgeCount_char F C hxy, if_pos (Or.inl hcone)]
  · rw [built_weight_char F C hxy, if_pos hcone, hinst, hemp]
    norm_num

/-- Claim C8, witness: two founders sharing exactly company `x` and
exactly the institution `IIT` (one of them listing it with surrounding
whitespace) receive a single edge of weight 4.0. -/
theorem C8_witness :
    (("c" : String) ≠ "d" ∧ (sharedCompanies [c8C, c8D] "c" "d").length = 1 ∧
        (sharedInstitutions [c8C, c8D] "c" "d").length = 1 ∧
        sharedEmployers [c8C, c8D] "c" "d" = []) ∧
      (edgeCountOf (builtGraph [c8C, c8D] []) "c" "d" = 1 ∧
        weightOf (builtGraph [c8C, c8D] []) "c" "d" = 4) :=
  ⟨⟨by decide, by decide, by decide, by decide⟩,
    C8_company_plus_institution_weight [c8C, c8D] [] (by decide) (by decide)
      (by decide) (by decide)⟩

/-! ### Edge-record decomposition of `build_graph` -/

theorem coFold_edges (companies : List Company)
    (stream : List (String × String × String)) (st : BState) :
    (stream.foldl (fun s kp => coFounderStep companies kp.1 s kp.2) st).edges =
      st.edges ++ stream.map (fun kp =>
        ⟨kp.2.1, kp.2.2, RelationshipType.co_founder, 3,
          companyDisplayName companies kp.1⟩) := by
  induction stream generalizing st with
  | nil => simp
  | cons kp rest ih =>
    rw [List.foldl_cons, ih]
    show (coFounderStep companies kp.1 st kp.2).edges ++ _ = _
    rw [List.map_cons]
    show (st.edges ++ [_]) ++ _ = _
    rw [List.append_assoc]
    rfl

theorem accumFold_edges (w : ℚ) (rel : RelationshipType) (rn : String)
    (stream : List (String × String × String)) (st : BState) :
    (stream.foldl (accumStep w rel rn) st).edges =
      st.edges ++ stream.map (fun kp => ⟨kp.2.1, kp.2.2, rel, w, kp.1⟩) := by
  induction stream generalizing st with
  | nil => simp
  | cons kp rest ih =>
    rw [List.foldl_cons, ih]
    have hstep : (accumStep w rel rn st kp).edges =
        st.edges ++ [⟨kp.2.1, kp.2.2, rel, w, kp.1⟩] := rfl
    rw [hstep, List.map_cons, List.append_assoc]
    rfl

/-- Edge-record stream produced by one build over given collections. -/
theorem build_graph_edges (F : List Founder) (C : List Company) (st : BState) :
    (build_graph F C st).edges =
      st.edges ++
        ((coPairStream (toDictF F)).map (fun kp =>
          ⟨kp.2.1, kp.2.2, RelationshipType.co_founder, 3,
            companyDisplayName C kp.1⟩) ++
          (instPairStream (toDictF F)).map (fun kp =>
            ⟨kp.2.1, kp.2.2, RelationshipType.same_college, 1, kp.1⟩) ++
          (empPairStream (toDictF F)).map (fun kp =>
            ⟨kp.2.1, kp.2.2, RelationshipType.same_employer, 3 / 2, kp.1⟩)) := by
  show ((empPairStream (toDictF F)).foldl
      (accumStep (3 / 2) RelationshipType.same_employer "same_employer")
      ((instPairStream (toDictF F)).foldl
        (accumStep 1 RelationshipType.same_college "same_college")
        ((coPairStream (toDictF F)).foldl
          (fun s kp => coFounderStep C kp.1 s kp.2)
          { graph := (toDictF F).foldl (fun g f => g.addNode f.id) st.graph
            edges := st.edges }))).edges = _
  rw [accumFold_edges, accumFold_edges, coFold_edges]
  simp [List.append_assoc]

/-- Claim C5, counterexample: two founders sharing only an institution get
an edge of weight 1.0 and one edge record after a single build, but weight
2.0 and two edge records after building twice — the state is accumulated,
not replaced. -/
theorem C5_counterexample :
    weightOf (build_graph [c5E, c5F] [] initState).graph "e" "f" = 1 ∧
      (build_graph [c5E, c5F] [] initState).edges.length = 1 ∧
      weightOf (build_graph [c5E, c5F] []
        (build_graph [c5E, c5F] [] initState)).graph "e" "f" = 2 ∧
      (build_graph [c5E, c5F] []
        (build_graph [c5E, c5F] [] initState)).edges.length = 2 := by
  decide

/-- Claim C5, amended: building is cumulative, not fresh — every build
appends its full contribution record list to whatever edge list the state
already holds (so a second build doubles the edge list), and re-applies
the weight rules on top of the surviving graph (an institution-only pair's
edge reaches weight 2.0 after two builds, as the counterexample shows). -/
theorem C5_build_appends_edges (F : List Founder) (C : List Company)
    (st : BState) :
    (build_graph F C st).edges =
      st.edges ++ (build_graph F C initState).edges := by
  rw [build_graph_edges, build_graph_edges]
  rfl

/-- Claim C9, confirmed: the engine's query operations are total functions
of the embedded state (they are plain Lean functions), and on a graph with
no edges both `centrality_rankings` and `detect_clusters` return the empty
list, for every founder/company collection, community-detection function,
and parameter. -/
theorem C9_empty_graph_queries (F : List Founder) (C : List Company)
    (g : Graph) (comm : Graph → List (List String)) (top_n min_size : Nat)
    (h : g.edgeList = []) :
    centrality_rankings F g top_n = [] ∧
      detect_clusters F C g comm min_size = [] := by
  constructor
  · unfold centrality_rankings
    rw [if_pos (by rw [h]; rfl)]
  · unfold detect_clusters
    rw [if_pos (by rw [h]; rfl)]

/-- Claim C9, witness: a single founder with only a sentinel-free empty
employer yields a one-node, zero-edge graph on which both queries return
the empty list. -/
theorem C9_witness :
    (builtGraph [c10H] [c10Z]).edgeList = [] ∧
      (centrality_rankings [c10H] (builtGraph [c10H] [c10Z]) 20 = [] ∧
        detect_clusters [c10H] [c10Z] (builtGraph [c10H] [c10Z])
          (fun _ => [["h"]]) 3 = []) :=
  ⟨by decide,
    C9_empty_graph_queries [c10H] [c10Z] (builtGraph [c10H] [c10Z])
      (fun _ => [["h"]]) 20 3 (by decide)⟩

/-! ### Counting-query lemmas -/

theorem mem_mostCommon {κ : Type} {m : List (κ × Nat)} {n : Nat}
    {e : κ × Nat} (he : e ∈ mostCommon m n) : e ∈ m := by
  unfold mostCommon pySortDesc at he
  have h1 := (List.take_sublist n _).mem he
  exact (List.perm_insertionSort _ m).mem_iff.1 h1

theorem filterMapInst_count (l : List Education) (fid k : String)
    (hk : k ≠ "") :
    ((l.filterMap (fun ed =>
        let inst := pyStrip ed.institution
        if inst = "" then none else some (inst, fid))).map
      Prod.fst).countP (fun a => a = k) =
      (l.filter (fun ed => pyStrip ed.institution == k)).length := by
  induction l with
  | nil => rfl
  | cons ed rest ih =>
    by_cases h : pyStrip ed.institution = ""
    · have hne : ("" == k) = false := by
        rw [beq_eq_false_iff_ne]
        exact fun he => hk he.symm
      simp [List.filterMap_cons, List.filter_cons, h, hne, ih]
    · by_cases hek : pyStrip ed.institution = k
      · simp [List.filterMap_cons, List.filter_cons, List.countP_cons, h,
          hek, hk, ih, Function.comp]
      · simp [List.filterMap_cons, List.filter_cons, List.countP_cons, h,
          hek, hk, ih, Function.comp]

theorem filterMapEmp_count (l : List WorkExperience) (fid k : String)
    (hk : k ≠ "") (hkd : k ≠ "—") :
    ((l.filterMap (fun w =>
        let emp := pyStrip w.company
        if emp = "" ∨ emp = "—" then none else some (emp, fid))).map
      Prod.fst).countP (fun a => a = k) =
      (l.filter (fun w => pyStrip w.company == k)).length := by
  induction l with
  | nil => rfl
  | cons w rest ih =>
    by_cases h : pyStrip w.company = "" ∨ pyStrip w.company = "—"
    · have hne : (pyStrip w.company == k) = false := by
        rw [beq_eq_false_iff_ne]
        rcases h with h | h
        · rw [h]; exact fun he => hk he.symm
        · rw [h]; exact fun he => hkd he.symm
      simp [List.filterMap_cons, List.filter_cons, h, hne, ih]
    · by_cases hek : pyStrip w.company = k
      · simp [List.filterMap_cons, List.filter_cons, List.countP_cons, h,
          hek, hk, hkd, ih, Function.comp]
      · simp [List.filterMap_cons, List.filter_cons, List.countP_cons, h,
          hek, hk, hkd, ih, Function.comp]

theorem instStream_countP (F : List Founder) (k : String) (hk : k ≠ "") :
    ((instStream (toDictF F)).map Prod.fst).countP (fun a => a = k) =
      instRecordCount F k := by
  unfold instStream instRecordCount
  rw [List.map_flatMap, countP_flatMap, List.length_flatMap]
  refine congrArg _ (List.map_congr_left (fun f _ => ?_))
  exact filterMapInst_count f.education f.id k hk

theorem empStream_countP (F : List Founder) (k : String) (hk : k ≠ "")
    (hkd : k ≠ "—") :
    ((empStream (toDictF F)).map Prod.fst).countP (fun a => a = k) =
      ((toDictF F).flatMap (fun f =>
        f.work_history.filter (fun w => pyStrip w.company == k))).length := by
  unfold empStream
  rw [List.map_flatMap, countP_flatMap, List.length_flatMap]
  refine congrArg _ (List.map_congr_left (fun f _ => ?_))
  exact filterMapEmp_count f.work_history f.id k hk hkd

/-- Claim C6, counterexample: a single founder with two education records
naming the same institution is reported with `founder_count` 2 by
`education_hubs`, although only one distinct founder lists the
institution — the counter tallies records, not founders. -/
theorem C6_counterexample :
    education_hubs [c6G] 15 = [("MIT", 2)] ∧
      distinctFounderCount [c6G] "MIT" = 1 := by
  decide

/-- Claim C6, amended: the `founder_count` reported by `education_hubs`
for an institution equals the number of education records (across all
stored founders) whose stripped institution name matches it — a founder
with duplicate records is counted once per record, and empty-after-strip
names are still excluded. -/
theorem C6_count_is_record_count (F : List Founder) (n : Nat)
    {e : String × Nat} (he : e ∈ education_hubs F n) :
    e.2 = instRecordCount F e.1 := by
  have hm : e ∈ educationCounter F := mem_mostCommon he
  obtain ⟨hval, hkey⟩ := mem_counterFold hm
  have hk : e.1 ≠ "" := by
    obtain ⟨kv, hkv, hkk⟩ := List.mem_map.1 hkey
    rw [← hkk]
    exact instStream_key_ne_empty hkv
  rw [hval]
  exact instStream_countP F e.1 hk

/-- Claim C6, witness: the amended statement evaluated on the
duplicate-record founder, whose reported count 2 equals the record
count. -/
theorem C6_witness :
    (("MIT", 2) ∈ education_hubs [c6G] 15) ∧
      (("MIT", 2) : String × Nat).2 = instRecordCount [c6G] "MIT" :=
  ⟨by decide, C6_count_is_record_count [c6G] 15 (by decide)⟩

/-! ### Insight-generation lemmas -/

theorem mem_pySortDesc {α : Type} {key : α → ℚ} {l : List α} {a : α} :
    a ∈ pySortDesc key l ↔ a ∈ l := by
  unfold pySortDesc
  exact (List.perm_insertionSort _ l).mem_iff

/-- Claim C7, counterexample: with three founders each listing the eleven
institutions `i0`, …, `i10`, the institution `i10` has founder count 3
(meeting the threshold) but is truncated away by the top-10 ranking, so no
education-hub insight mentions it — insight generation is gated by the
top-10 cut as well as by the threshold. -/
theorem C7_counterexample :
    counterLookup (educationCounter c7Founders) "i10" = 3 ∧
      (education_hubs c7Founders 10).length = 10 ∧
      (education_hubs c7Founders 10).all (fun e => decide (e.1 ≠ "i10")) =
        true ∧
      (educationHubInsights c7Founders).all
        (fun i => decide (i.entities ≠ ["i10"])) = true := by
  decide

/-- Claim C7, amended: within the top-10 truncation of the underlying
ranking, generation is gated by the minimum-signal threshold: every
institution among `education_hubs 10` with founder count at least 3 yields
an `education_hub` insight scored by the count, and every employer among
`employer_pipelines 10` with count at least 3 yields an
`employer_pipeline` insight scored by count × 1.5, in the merged ranked
output — but institutions outside the top 10 yield nothing even at or
above the threshold. -/
theorem C7_insights_gated_by_top10_and_threshold (F : List Founder)
    (C : List Company) (g : Graph) (comm : Graph → List (List String)) :
    (∀ e ∈ education_hubs F 10, 3 ≤ e.2 →
      ∃ ins ∈ generate_insights F C g comm,
        ins.category = "education_hub" ∧ ins.score = (e.2 : ℚ) ∧
          ins.entities = [e.1]) ∧
    (∀ e ∈ employer_pipelines F 10, 3 ≤ e.2 →
      ∃ ins ∈ generate_insights F C g comm,
        ins.category = "employer_pipeline" ∧
          ins.score = (e.2 : ℚ) * (3 / 2) ∧ ins.entities = [e.1]) := by
  constructor
  · intro e he h3
    refine ⟨{ category := "education_hub"
              title := e.1 ++ " Founder Factory"
              detail := e.1 ++ " produced founders in this sector."
              score := (e.2 : ℚ)
              entities := [e.1] }, ?_, rfl, rfl, rfl⟩
    unfold generate_insights
    rw [mem_pySortDesc]
    refine List.mem_append_left _ (List.mem_append_left _
      (List.mem_append_left _ (List.mem_append_left _ ?_)))
    unfold educationHubInsights
    exact List.mem_filterMap.2 ⟨e, he, by rw [if_pos h3]⟩
  · intro e he h3
    refine ⟨{ category := "employer_pipeline"
              title := e.1 ++ " Alumni Mafia"
              detail := e.1 ++ " spawned founders."
              score := (e.2 : ℚ) * (3 / 2)
              entities := [e.1] }, ?_, rfl, rfl, rfl⟩
    unfold generate_insights
    rw [mem_pySortDesc]
    refine List.mem_append_left _ (List.mem_append_left _
      (List.mem_append_left _ (List.mem_append_right _ ?_)))
    unfold employerPipelineInsights
    exact List.mem_filterMap.2 ⟨e, he, by rw [if_pos h3]⟩

/-- Claim C7, witness: institution `i0` sits inside the top 10 with count
3, so the amended statement produces its insight in the merged output of
the eleven-institution scenario (with the community-detection collaborator
returning no communities). -/
theorem C7_witness :
    (("i0", 3) ∈ education_hubs c7Founders 10 ∧ 3 ≤ 3) ∧
      (∃ ins ∈ generate_insights c7Founders [] (builtGraph c7Founders [])
          (fun _ => []),
        ins.category = "education_hub" ∧ ins.score = ((3 : Nat) : ℚ) ∧
          ins.entities = ["i0"]) :=
  ⟨⟨by decide, by decide⟩,
    (C7_insights_gated_by_top10_and_threshold c7Founders []
      (builtGraph c7Founders []) (fun _ => [])).1 ("i0", 3) (by decide)
      (by decide)⟩

/-! ### Talent-flow lemmas -/

theorem mem_le_map_sum {α : Type} {l : List α} {a : α} (f : α → Nat)
    (ha : a ∈ l) : f a ≤ (l.map f).sum := by
  induction l with
  | nil => cases ha
  | cons b rest ih =>
    rw [List.map_cons, List.sum_cons]
    rcases List.mem_cons.1 ha with rfl | ha'
    · exact Nat.le_add_right _ _
    · exact Nat.le_trans (ih ha') (Nat.le_add_left _ _)

theorem two_mem_le_map_sum {α : Type} {l : List α} {a b : α} (f : α → Nat)
    (ha : a ∈ l) (hb : b ∈ l) (hab : a ≠ b) (h1 : 1 ≤ f a) (h2 : 1 ≤ f b) :
    2 ≤ (l.map f).sum := by
  induction l with
  | nil => cases ha
  | cons c rest ih =>
    rw [List.map_cons, List.sum_cons]
    rcases List.mem_cons.1 ha with rfl | ha'
    · have hb' : b ∈ rest := by
        rcases List.mem_cons.1 hb with rfl | hb'
        · exact absurd rfl hab
        · exact hb'
      have := mem_le_map_sum f hb'
      omega
    · rcases List.mem_cons.1 hb with rfl | hb'
      · have := mem_le_map_sum f ha'
        omega
      · have := ih ha' hb'
        omega

/-- One founder's contribution list inside `flowStream`. -/
theorem flow_contrib_mem {companies : List Company} {f : Founder}
    {cid : String} (hw : ∃ w ∈ f.work_history, pyStrip w.company = "")
    (hc : cid ∈ f.companies) :
    ((("", companyDisplayName companies cid), f.name)) ∈
      (dedupFirst (f.work_history.filterMap (fun w =>
          let emp := pyStrip w.company
          if emp = "—" then none else some emp))).flatMap
        (fun emp =>
          (dedupFirst f.companies).map (fun cid =>
            ((emp, companyDisplayName companies cid), f.name))) := by
  obtain ⟨w, hwm, hws⟩ := hw
  have hemp : ("" : String) ∈ f.work_history.filterMap (fun w =>
      let emp := pyStrip w.company
      if emp = "—" then none else some emp) := by
    refine List.mem_filterMap.2 ⟨w, hwm, ?_⟩
    rw [hws]
    rfl
  refine List.mem_flatMap.2 ⟨"", (mem_dedupFirst _ _).2 hemp, ?_⟩
  exact List.mem_map.2 ⟨cid, (mem_dedupFirst _ _).2 hc, rfl⟩

/-- Claim C10, confirmed: `founder_to_company_flow` excludes only the
em-dash sentinel employer, keeping empty strings — when two distinct
stored founders each have an empty-after-strip employer and both founded
the same company, a flow entry with empty `from_employer` is produced;
`employer_pipelines` by contrast never reports an empty employer. -/
theorem C10_flow_keeps_empty_employer (F : List Founder) (C : List Company)
    {f₁ f₂ : Founder} {cid : String}
    (h₁ : f₁ ∈ toDictF F) (h₂ : f₂ ∈ toDictF F) (hne : f₁ ≠ f₂)
    (hw₁ : ∃ w ∈ f₁.work_history, pyStrip w.company = "")
    (hw₂ : ∃ w ∈ f₂.work_history, pyStrip w.company = "")
    (hc₁ : cid ∈ f₁.companies) (hc₂ : cid ∈ f₂.companies) :
    (∃ e ∈ founder_to_company_flow F C, e.from_employer = "") ∧
      (∀ n, ∀ e ∈ employer_pipelines F n, (e : String × Nat).1 ≠ "") := by
  constructor
  · set key : String × String := ("", companyDisplayName C cid)
    have hm₁ : (key, f₁.name) ∈ flowStream F C := by
      refine List.mem_flatMap.2 ⟨f₁, h₁, ?_⟩
      exact flow_contrib_mem hw₁ hc₁
    have hm₂ : (key, f₂.name) ∈ flowStream F C := by
      refine List.mem_flatMap.2 ⟨f₂, h₂, ?_⟩
      exact flow_contrib_mem hw₂ hc₂
    have hcount : 2 ≤ (flowStream F C).countP (fun kv => kv.1 = key) := by
      unfold flowStream
      rw [countP_flatMap]
      refine two_mem_le_map_sum _ h₁ h₂ hne ?_ ?_
      · rw [Nat.succ_le_iff, List.countP_pos_iff]
        exact ⟨(key, f₁.name), flow_contrib_mem hw₁ hc₁, by simp⟩
      · rw [Nat.succ_le_iff, List.countP_pos_iff]
        exact ⟨(key, f₂.name), flow_contrib_mem hw₂ hc₂, by simp⟩
    have hkey : key ∈ (groupPairs (flowStream F C)).map Prod.fst := by
      rw [groupPairs_keys, mem_dedupFirst]
      exact List.mem_map.2 ⟨(key, f₁.name), hm₁, rfl⟩
    obtain ⟨g, hg, hgk⟩ := List.mem_map.1 hkey
    have hlen : 2 ≤ g.2.length := by
      rw [mem_groupPairs_lookup hg, List.length_map, hgk,
        ← List.countP_eq_length_filter]
      exact hcount
    refine ⟨⟨g.1.1, g.1.2, g.2, g.2.length⟩, ?_, ?_⟩
    · unfold founder_to_company_flow
      rw [mem_pySortDesc]
      exact List.mem_filterMap.2 ⟨g, hg, by rw [if_pos hlen]⟩
    · show g.1.1 = ""
      rw [hgk]
  · intro n e he
    have hm : e ∈ employerCounter F := mem_mostCommon he
    obtain ⟨_, hkey⟩ := (mem_counterFold hm)
    obtain ⟨kv, hkv, hkk⟩ := List.mem_map.1 hkey
    rw [← hkk]
    exact (empStream_key_ne_empty hkv).1

/-- Claim C10, witness: two founders with whitespace-only and empty
employers who both founded company `z` yield a flow entry from the empty
employer, while the employer-pipeline ranking stays silent. -/
theorem C10_witness :
    (c10H ∈ toDictF [c10H, c10I] ∧ c10I ∈ toDictF [c10H, c10I] ∧
        c10H ≠ c10I ∧
        (∃ w ∈ c10H.work_history, pyStrip w.company = "") ∧
        (∃ w ∈ c10I.work_history, pyStrip w.company = "") ∧
        "z" ∈ c10H.companies ∧ "z" ∈ c10I.companies) ∧
      ((∃ e ∈ founder_to_company_flow [c10H, c10I] [c10Z],
          e.from_employer = "") ∧
        (∀ n, ∀ e ∈ employer_pipelines [c10H, c10I] n,
          (e : String × Nat).1 ≠ "")) :=
  ⟨⟨by decide, by decide, by decide, ⟨⟨"  "⟩, by decide, by decide⟩,
      ⟨⟨""⟩, by decide, by decide⟩, by decide, by decide⟩,
    @C10_flow_keeps_empty_employer [c10H, c10I] [c10Z] c10H c10I "z"
      (by decide) (by decide) (by decide) ⟨⟨"  "⟩, by decide, by decide⟩
      ⟨⟨""⟩, by decide, by decide⟩ (by decide) (by decide)⟩

/-! ### Permutation-enumeration lemmas -/

theorem perm_of_mem_insertEverywhere {α : Type} {a : α} {q p : List α}
    (hp : p ∈ insertEverywhere a q) : p.Perm (a :: q) := by
  induction q generalizing p with
  | nil =>
    rw [insertEverywhere, List.mem_singleton] at hp
    rw [hp]
  | cons b bs ih =>
    rw [insertEverywhere, List.mem_cons] at hp
    rcases hp with rfl | hp'
    · exact List.Perm.refl _
    · obtain ⟨q, hq, hpq⟩ := List.mem_map.1 hp'
      rw [← hpq]
      exact (List.Perm.cons b (ih hq)).trans (List.Perm.swap a b bs)

theorem insert_mem_insertEverywhere {α : Type} (a : α) (p₁ p₂ : List α) :
    (p₁ ++ a :: p₂) ∈ insertEverywhere a (p₁ ++ p₂) := by
  induction p₁ with
  | nil =>
    cases p₂ with
    | nil => exact List.mem_singleton.2 rfl
    | cons c cs => exact List.mem_cons_self _ _
  | cons b p₁' ih =>
    exact List.mem_cons_of_mem _ (List.mem_map.2 ⟨p₁' ++ a :: p₂, ih, rfl⟩)

theorem mem_permsOf {α : Type} [DecidableEq α] {l p : List α} :
    p ∈ permsOf l ↔ p.Perm l := by
  induction l generalizing p with
  | nil =>
    rw [permsOf, List.mem_singleton]
    exact ⟨fun h => h ▸ List.Perm.refl _, List.Perm.eq_nil⟩
  | cons a rest ih =>
    rw [permsOf, List.mem_flatMap]
    constructor
    · rintro ⟨q, hq, hpq⟩
      exact (perm_of_mem_insertEverywhere hpq).trans
        (List.Perm.cons a (ih.1 hq))
    · intro hperm
      have ha : a ∈ p := hperm.mem_iff.2 (List.mem_cons_self a rest)
      obtain ⟨p₁, p₂, rfl⟩ := List.append_of_mem ha
      refine ⟨p₁ ++ p₂, ih.2 ?_, insert_mem_insertEverywhere a p₁ p₂⟩
      exact (List.perm_middle.symm.trans hperm).cons_inv

theorem mem_pathUniverse {g : Graph} {q : List String} :
    q ∈ pathUniverse g ↔
      ∃ s, s.Sublist (dedupFirst g.nodes) ∧ q.Perm s := by
  unfold pathUniverse
  rw [List.mem_flatMap]
  constructor
  · rintro ⟨s, hs, hq⟩
    exact ⟨s, List.mem_sublists.1 hs, mem_permsOf.1 hq⟩
  · rintro ⟨s, hs, hq⟩
    exact ⟨s, List.mem_sublists.2 hs, mem_permsOf.2 hq⟩

theorem reverse_mem_pathUniverse {g : Graph} {q : List String}
    (hq : q ∈ pathUniverse g) : q.reverse ∈ pathUniverse g := by
  obtain ⟨s, hs, hperm⟩ := mem_pathUniverse.1 hq
  exact mem_pathUniverse.2 ⟨s, hs, (List.reverse_perm q).trans hperm⟩

/-! ### Path-reversal symmetry -/

theorem hasEdge_symm (g : Graph) (x y : String) :
    g.hasEdge y x = g.hasEdge x y := by
  unfold Graph.hasEdge
  refine any_congr_fn _ (fun e _ => ?_)
  exact pairMatch_swap e.a e.b x y

theorem weightOf_symm (g : Graph) (x y : String) :
    weightOf g y x = weightOf g x y := by
  unfold weightOf
  rw [List.filter_congr (fun e _ => pairMatch_swap e.a e.b x y)]

theorem chainAdj_iff_chain' (g : Graph) (p : List String) :
    chainAdj g p ↔ List.Chain' (fun a b => g.hasEdge a b = true) p := by
  induction p with
  | nil => simp [chainAdj, chainAdjB]
  | cons x rest ih =>
    cases rest with
    | nil => simp [chainAdj, chainAdjB]
    | cons y r =>
      rw [List.chain'_cons, ← ih]
      unfold chainAdj
      rw [show chainAdjB g (x :: y :: r) =
        (g.hasEdge x y && chainAdjB g (y :: r)) from rfl]
      rw [Bool.and_eq_true]

theorem chainAdj_reverse {g : Graph} {p : List String} :
    chainAdj g p.reverse ↔ chainAdj g p := by
  rw [chainAdj_iff_chain', chainAdj_iff_chain', List.chain'_reverse]
  constructor
  · intro h
    refine h.imp (fun a b hab => ?_)
    show g.hasEdge a b = true
    rw [← hasEdge_symm]
    exact hab
  · intro h
    refine h.imp (fun a b hab => ?_)
    show g.hasEdge b a = true
    rw [hasEdge_symm]
    exact hab

theorem pathCost_append_last (g : Graph) (xs : List String) (y : String) :
    pathCost g (xs ++ [y]) =
      pathCost g xs + (match xs.getLast? with
        | some x => weightOf g x y
        | none => 0) := by
  induction xs with
  | nil => simp [pathCost]
  | cons x xs' ih =>
    cases xs' with
    | nil => simp [pathCost]
    | cons z rest =>
      have h1 : pathCost g ((x :: z :: rest) ++ [y]) =
          weightOf g x z + pathCost g ((z :: rest) ++ [y]) := rfl
      have h2 : pathCost g (x :: z :: rest) =
          weightOf g x z + pathCost g (z :: rest) := rfl
      rw [h1, ih, h2]
      have h3 : (x :: z :: rest).getLast? = (z :: rest).getLast? := by
        rw [List.getLast?_cons_cons]
      rw [h3, add_assoc]

theorem pathCost_reverse (g : Graph) (p : List String) :
    pathCost g p.reverse = pathCost g p := by
  induction p with
  | nil => rfl
  | cons a tl ih =>
    rw [List.reverse_cons, pathCost_append_last, ih]
    cases tl with
    | nil => simp [pathCost]
    | cons b rest =>
      have h1 : pathCost g (a :: b :: rest) =
          weightOf g a b + pathCost g (b :: rest) := rfl
      have h2 : (b :: rest).reverse.getLast? = some b := by
        rw [List.getLast?_reverse]
        rfl
      rw [h1, h2, weightOf_symm, add_comm]

theorem isSPath_reverse {g : Graph} {s t : String} {p : List String} :
    IsSPath g t s p.reverse ↔ IsSPath g s t p := by
  unfold IsSPath
  rw [List.head?_reverse, List.getLast?_reverse, List.nodup_reverse,
    chainAdj_reverse]
  tauto

theorem pathFinset_reverse (g : Graph) (s t : String) :
    pathFinset g t s = (pathFinset g s t).image List.reverse := by
  ext q
  simp only [pathFinset, Finset.mem_image, Finset.mem_filter,
    List.mem_toFinset]
  constructor
  · intro ⟨hu, hsp⟩
    refine ⟨q.reverse, ⟨reverse_mem_pathUniverse hu, ?_⟩, q.reverse_reverse⟩
    rw [← q.reverse_reverse] at hsp
    exact isSPath_reverse.1 hsp
  · rintro ⟨p, ⟨hu, hsp⟩, rfl⟩
    exact ⟨reverse_mem_pathUniverse hu, isSPath_reverse.2 hsp⟩

theorem distW_symm (g : Graph) (s t : String) :
    distW g t s = distW g s t := by
  unfold distW
  rw [pathFinset_reverse, Finset.image_image]
  refine congrArg Finset.min (Finset.image_congr ?_)
  intro p _
  exact pathCost_reverse g p

theorem shortestPaths_reverse (g : Graph) (s t : String) :
    shortestPaths g t s = (shortestPaths g s t).image List.reverse := by
  unfold shortestPaths
  rw [pathFinset_reverse]
  ext q
  simp only [Finset.mem_filter, Finset.mem_image]
  constructor
  · rintro ⟨⟨p, hp, rfl⟩, hd⟩
    refine ⟨p, ⟨hp, ?_⟩, rfl⟩
    rw [← pathCost_reverse g p, ← distW_symm g s t]
    exact hd
  · rintro ⟨p, ⟨hp, hd⟩, rfl⟩
    refine ⟨⟨p, hp, rfl⟩, ?_⟩
    rw [pathCost_reverse g p, distW_symm g s t]
    exact hd

theorem sigmaST_symm (g : Graph) (s t : String) :
    sigmaST g t s = sigmaST g s t := by
  unfold sigmaST
  rw [shortestPaths_reverse]
  exact Finset.card_image_of_injective _ List.reverse_injective

theorem sigmaThrough_symm (g : Graph) (s t v : String) :
    sigmaThrough g t s v = sigmaThrough g s t v := by
  unfold sigmaThrough
  rw [shortestPaths_reverse]
  have himg : ((shortestPaths g s t).image List.reverse).filter
      (fun p => v ∈ p) =
      ((shortestPaths g s t).filter (fun p => v ∈ p)).image List.reverse := by
    ext q
    simp only [Finset.mem_filter, Finset.mem_image]
    constructor
    · rintro ⟨⟨p, hp, rfl⟩, hv⟩
      exact ⟨p, ⟨hp, by rwa [List.mem_reverse] at hv⟩, rfl⟩
    · rintro ⟨p, ⟨hp, hv⟩, rfl⟩
      exact ⟨⟨p, hp, rfl⟩, by rwa [List.mem_reverse]⟩
  rw [himg]
  exact Finset.card_image_of_injective _ List.reverse_injective

theorem pairDep_symm (g : Graph) (s t v : String) :
    pairDep g t s v = pairDep g s t v := by
  unfold pairDep
  rw [sigmaST_symm, sigmaThrough_symm]
  by_cases h : s ≠ t ∧ v ≠ s ∧ v ≠ t ∧ sigmaST g s t ≠ 0
  · obtain ⟨h1, h2, h3, h4⟩ := h
    rw [if_pos ⟨fun he => h1 he.symm, h3, h2, h4⟩, if_pos ⟨h1, h2, h3, h4⟩]
  · rw [if_neg ?_, if_neg h]
    intro ⟨h1, h2, h3, h4⟩
    exact h ⟨fun he => h1 he.symm, h3, h2, h4⟩

theorem pairDep_self (g : Graph) (s v : String) : pairDep g s s v = 0 := by
  unfold pairDep
  rw [if_neg]
  intro ⟨h1, _, _, _⟩
  exact h1 rfl

/-! ### Ordered double sum versus unordered pair sum -/

theorem double_sum_pairsOf {α : Type} (l : List α) (f : α → α → ℚ)
    (hsymm : ∀ a b, f a b = f b a) :
    (l.map (fun s => (l.map (f s)).sum)).sum =
      2 * ((pairsOf l).map (fun p => f p.1 p.2)).sum +
        (l.map (fun a => f a a)).sum := by
  induction l with
  | nil => simp [pairsOf]
  | cons a rest ih =>
    rw [pairsOf, List.map_append, List.sum_append]
    have hrow : ∀ s, ((a :: rest).map (f s)).sum =
        f s a + (rest.map (f s)).sum := by
      intro s
      rw [List.map_cons, List.sum_cons]
    rw [List.map_cons, List.sum_cons, hrow a]
    have hcols : (rest.map (fun s => ((a :: rest).map (f s)).sum)).sum =
        (rest.map (fun s => f s a)).sum +
          (rest.map (fun s => (rest.map (f s)).sum)).sum := by
      rw [← List.sum_map_add]
      refine congrArg List.sum (List.map_congr_left (fun s _ => ?_))
      exact hrow s
    rw [hcols, ih]
    have hsw : (rest.map (fun s => f s a)).sum =
        (rest.map (fun b => f a b)).sum := by
      refine congrArg List.sum (List.map_congr_left (fun b _ => ?_))
      exact (hsymm a b).symm
    rw [hsw, List.map_map, List.map_cons, List.sum_cons]
    have hmm : (rest.map ((fun p : α × α => f p.1 p.2) ∘ fun b => (a, b))) =
        rest.map (fun b => f a b) := rfl
    rw [hmm]
    ring

/-! ### Betweenness claim theorems -/

/-- Claim C1, code evaluated at the failing input: `c1Graph'` is
identical to `c1Graph` except that the s–m edge weight is raised from 1.0
to 4.0 (the pair additionally shares a company).  Because the code hands
relationship-strength weights to `nx.betweenness_centrality` as
*distances*, strengthening the s–m tie moves every shortest s–t path off
the middle founder: the number of shortest s–t paths through `m` drops
from 1 to 0 and its reported centrality from 1.0 to 0.0, the opposite of
the spec's larger-weight-is-cheaper convention. -/
theorem C1_stronger_edge_repels_shortest_paths :
    c1Graph.nodes = c1Graph'.nodes ∧
      c1Graph.edgeList.length = 3 ∧ c1Graph'.edgeList.length = 3 ∧
      weightOf c1Graph "s" "m" = 1 ∧ weightOf c1Graph' "s" "m" = 4 ∧
      weightOf c1Graph "s" "t" = 3 ∧ weightOf c1Graph' "s" "t" = 3 ∧
      weightOf c1Graph "m" "t" = 1 ∧ weightOf c1Graph' "m" "t" = 1 ∧
      sigmaThrough c1Graph "s" "t" "m" = 1 ∧
      sigmaThrough c1Graph' "s" "t" "m" = 0 ∧
      centralityValue c1Graph "m" = 1 ∧
      centralityValue c1Graph' "m" = 0 := by
  decide

set_option maxRecDepth 10000 in
set_option maxHeartbeats 4000000 in
/-- Claim C4, counterexample: on the four-node path graph the reported
centrality of the middle founder `b` is 0.6667 — the raw sum 2 of
shortest-path fractions over unordered node pairs multiplied by the
default normalization 2/((n-1)(n-2)) = 1/3 and rounded — so the reported
value is not the raw Brandes accumulation. -/
theorem C4_counterexample :
    centralityValue c4Graph "b" = 6667 / 10000 ∧
      specRawBetweenness c4Graph "b" = 2 ∧
      ¬ centralityValue c4Graph "b" = specRawBetweenness c4Graph "b" := by
  decide

/-- Claim C4, amended: `centrality_rankings` reports *normalized*
betweenness — on every graph with at least three nodes the reported
centrality of a node is the raw accumulation of shortest-path fractions
over unordered node pairs multiplied by the networkx default
normalization factor 2/((n-1)(n-2)), rounded to four decimals. -/
theorem C4_centrality_reports_normalized (g : Graph) (v : String)
    (h3 : 3 ≤ g.nodes.length) :
    centralityValue g v =
      round4 (2 * specRawBetweenness g v /
        (((g.nodes.length : ℚ) - 1) * ((g.nodes.length : ℚ) - 2))) := by
  unfold centralityValue nxBetweenness
  rw [if_pos h3]
  have hdiag : (g.nodes.map (fun a => pairDep g a a v)).sum = 0 := by
    refine List.sum_eq_zero (fun x hx => ?_)
    obtain ⟨a, _, rfl⟩ := List.mem_map.1 hx
    exact pairDep_self g a v
  have hs := double_sum_pairsOf g.nodes (fun s t => pairDep g s t v)
    (fun a b => (pairDep_symm g a b v).symm)
  have hord : orderedPairSum g v = 2 * specRawBetweenness g v := by
    unfold orderedPairSum specRawBetweenness
    simpa [hdiag] using hs
  rw [hord]

/-- Claim C4, witness: the amended statement evaluated on the three-node
scenario graph, whose middle founder has raw betweenness 1 and reported
centrality round4(2·1/(2·1)) = 1. -/
theorem C4_witness :
    3 ≤ c1Graph.nodes.length ∧
      centralityValue c1Graph "m" =
        round4 (2 * specRawBetweenness c1Graph "m" /
          (((c1Graph.nodes.length : ℚ) - 1) *
            ((c1Graph.nodes.length : ℚ) - 2))) :=
  ⟨by decide, C4_centrality_reports_normalized c1Graph "m" (by decide)⟩

end FintechNetworks
